import Mathlib

/-!
# Aho-Corasick automaton (`ahocorasick.hpp`)

A shallow embedding of the classes `State<char, unsigned long>` and `AhoCorasick`.

* `std::string` is a `List Char`; `tolower` is the "C" locale one (`Char.toLower`).
* `std::set<char>` is a duplicate-free `List Char` kept in increasing order of the
  character codes.
* The automaton owns its states in the vector `states`; a `weak_ptr` to a state is the
  index of the state in that vector, and an empty `weak_ptr` is `none`.
* A call that throws or does not return yields a `Fault`.
-/

namespace AC

/-- The ways a call may end without returning a value. -/
inductive Fault where
  /-- A `shared_ptr` is built from an empty `weak_ptr` (`std::bad_weak_ptr`). -/
  | bad_weak_ptr
  /-- The call `states.at(0)` on an empty collection (`std::out_of_range`). -/
  | out_of_range
  /-- A loop that does not terminate. -/
  | no_return
  /-- An element of a container is read through a reference after the container has
  destroyed the element and released its memory. -/
  | dangling_reference
  deriving DecidableEq, Repr

/-- The function `tolower` on a `char`. -/
def tolower (c : Char) : Char := c.toLower

/-- The member `std::set<char>::insert`: an element that is already present is not
inserted again, a new one goes to its place in increasing order. -/
def set_insert (c : Char) (s : List Char) : List Char :=
  if c ∈ s then s else s.orderedInsert (fun a b => a.toNat ≤ b.toNat) c

/-- An edge of a state: `entry` is the symbol, `dest` the state it leads to. -/
structure Edge where
  entry : Char
  dest : Nat
  deriving DecidableEq, Repr

/-- A state of the machine: `State<char, unsigned long>`. The constructor leaves the
edges and outputs empty and the fail pointer empty. -/
structure State where
  edges : List Edge := []
  outputs : List Nat := []
  fail : Option Nat := none
  deriving DecidableEq, Repr

/-- The loop of `State::go` over the edges: the destination of the first edge whose
entry is the one asked for, the empty pointer when there is none. -/
def go_edges : List Edge → Char → Option Nat
  | [], _ => none
  | e :: es, entry => if e.entry = entry then some e.dest else go_edges es entry

/-- The member `State::go`. -/
def State.go (st : State) (entry : Char) : Option Nat := go_edges st.edges entry

/-- The member `State::add_child`: the return code and the state afterwards. -/
def State.add_child (st : State) (entry : Char) (dest : Nat) : Int × State :=
  if (st.go entry).isSome then (-1, st)
  else (0, { st with edges := st.edges ++ [{ entry := entry, dest := dest }] })

/-- The member `State::add_output`. -/
def State.add_output (st : State) (out : Nat) : State :=
  { st with outputs := st.outputs ++ [out] }

/-- The member `State::set_fail`. -/
def State.set_fail (st : State) (f : Option Nat) : State :=
  { st with fail := f }

/-- The member `State::get_entries`: the set of the entries of the edges. -/
def State.get_entries (st : State) : List Char :=
  st.edges.foldl (fun ls e => set_insert e.entry ls) []

/-- The class `AhoCorasick`: the states it owns (the root is `states[0]`) and the
vocabulary. -/
structure AhoCorasick where
  states : List State
  vocabulary : List Char
  deriving DecidableEq, Repr

/-- The loop of `preprocess_string` from the character it stands at: the rest of the
input, `last_char`, and the vocabulary; the characters put into `out` and the vocabulary
afterwards. -/
def preprocess_loop (update_vocab : Bool) : List Char → Char → List Char → List Char × List Char
  | [], _, vocabulary => ([], vocabulary)
  | c :: cs, last_char, vocabulary =>
    let l := tolower c
    if l ∉ vocabulary ∧ update_vocab = false then
      preprocess_loop update_vocab cs l vocabulary
    else if last_char = ' ' ∧ last_char = l then
      preprocess_loop update_vocab cs l vocabulary
    else
      let r := preprocess_loop update_vocab cs l (set_insert l vocabulary)
      (l :: r.1, r.2)

/-- The member `AhoCorasick::preprocess_string` on the vocabulary `vocabulary`: the string
returned and the vocabulary afterwards. `s[0]` of an empty `std::string` is the
terminating null character. -/
def preprocess_string (vocabulary : List Char) (s : List Char) (update_vocab : Bool) :
    List Char × List Char :=
  preprocess_loop update_vocab s (tolower (s.headD (Char.ofNat 0))) vocabulary

/-- The constructor `AhoCorasick(vocab)`. -/
def AhoCorasick.mk_new (vocab : List Char) : AhoCorasick :=
  { vocabulary := vocab.foldl (fun v c => set_insert (tolower c) v) [],
    states := [{}] }

/-- The inner loop of the trie insertion (lines 173-185): walks the symbols of the
pattern from the state `p`, adding a state for each missing edge; returns the state
reached and the states afterwards. -/
def insert_symbols : List Char → Nat → List State → Except Fault (Nat × List State)
  | [], p, states => .ok (p, states)
  | c :: cs, p, states =>
    match states[p]? with
    | none => .error .bad_weak_ptr
    | some locked_p =>
      match locked_p.go c with
      | none =>
        let new_state := states.length
        insert_symbols cs new_state
          (states.set p (locked_p.add_child c new_state).2 ++ [{}])
      | some child => insert_symbols cs child states

/-- The outer loop of the trie insertion (lines 169-187) from the pattern of index `i`.
The walk starts at `root()`, which is `states.at(0)`. -/
def insert_patterns : List (List Char) → Nat → AhoCorasick → Except Fault AhoCorasick
  | [], _, a => .ok a
  | d :: ds, i, a =>
    if a.states.length = 0 then .error .out_of_range else
    let s := preprocess_string a.vocabulary d true
    match insert_symbols s.1 0 a.states with
    | .error e => .error e
    | .ok (p, states) =>
      match states[p]? with
      | none => .error .bad_weak_ptr
      | some st =>
        insert_patterns ds (i + 1)
          { states := states.set p (st.add_output i), vocabulary := s.2 }

/-- The loop that adds the loops into the root (lines 194-199), on the root state. -/
def add_root_loops : List Char → List Char → State → State
  | [], _, root => root
  | c :: cs, root_entries, root =>
    if c ∉ root_entries then add_root_loops cs root_entries (root.add_child c 0).2
    else add_root_loops cs root_entries root

/-- The loop that sets the fail pointer of the children of the root and puts them into
the queue (lines 203-210). -/
def init_queue : List Char → List State → List Nat → Except Fault (List State × List Nat)
  | [], states, state_queue => .ok (states, state_queue)
  | c :: cs, states, state_queue =>
    match states[0]? with
    | none => .error .out_of_range
    | some root =>
      match root.go c with
      | none => .error .bad_weak_ptr
      | some q =>
        match states[q]? with
        | none => .error .bad_weak_ptr
        | some locked_q =>
          if q ≠ 0 then
            init_queue cs (states.set q (locked_q.set_fail (some 0))) (state_queue ++ [q])
          else init_queue cs states state_queue

/-- The loop `while (v->go(c).expired()) v = v->get_fail()` (lines 223-225 and
253-255) from the state `v`: the state it stops at. At most `fuel` states are looked
at; with `fuel` the number of states, a longer walk has come back to a state it has seen
and goes on for ever. -/
def chase : Nat → List State → Nat → Char → Except Fault Nat
  | 0, _, _, _ => .error .no_return
  | fuel + 1, states, v, c =>
    match states[v]? with
    | none => .error .bad_weak_ptr
    | some locked_v =>
      match locked_v.go c with
      | some _ => .ok v
      | none =>
        match locked_v.fail with
        | none => .error .bad_weak_ptr
        | some f => chase fuel states f c

/-- The body of the loop over the entries of `r` (lines 218-234) for the entry `c`. -/
def bfs_child (r : Nat) (c : Char) (states : List State) (state_queue : List Nat) :
    Except Fault (List State × List Nat) :=
  match states[r]? with
  | none => .error .bad_weak_ptr
  | some locked_r =>
    match locked_r.go c with
    | none => .error .bad_weak_ptr
    | some u =>
      match locked_r.fail with
      | none => .error .bad_weak_ptr
      | some v0 =>
        match chase states.length states v0 c with
        | .error e => .error e
        | .ok v =>
          match states[v]? with
          | none => .error .bad_weak_ptr
          | some locked_v =>
            match locked_v.go c with
            | none => .error .bad_weak_ptr
            | some fu =>
              match states[u]? with
              | none => .error .bad_weak_ptr
              | some locked_u =>
                match (states.set u (locked_u.set_fail (some fu)))[fu]? with
                | none => .error .bad_weak_ptr
                | some locked_fu =>
                  .ok (states.set u
                        { locked_u with fail := some fu,
                                        outputs := locked_u.outputs ++ locked_fu.outputs },
                       state_queue ++ [u])

/-- The loop over the entries of the state `r` taken from the queue (lines 217-235). -/
def bfs_children : List Char → Nat → List State → List Nat →
    Except Fault (List State × List Nat)
  | [], _, states, state_queue => .ok (states, state_queue)
  | c :: cs, r, states, state_queue =>
    match bfs_child r c states state_queue with
    | .error e => .error e
    | .ok (states1, queue1) => bfs_children cs r states1 queue1

/-- The loop over the queue (lines 212-236). The state `r` is the front of the queue as
it is before `pop()` (the source reads it through a reference it keeps across `pop()`;
`bfs_by_reference` has this read). In a trie every state enters the queue at most once,
so `fuel` is the number of states. -/
def bfs : Nat → List State → List Nat → Except Fault (List State)
  | _, states, [] => .ok states
  | 0, _, _ :: _ => .error .no_return
  | fuel + 1, states, r :: state_queue =>
    match states[r]? with
    | none => .error .bad_weak_ptr
    | some locked_r =>
      match bfs_children locked_r.get_entries r states state_queue with
      | .error e => .error e
      | .ok (states1, queue1) => bfs fuel states1 queue1

/-- The member `AhoCorasick::initialize`: the return code and the automaton
afterwards. -/
def AhoCorasick.initialize_ (a : AhoCorasick) (dict : List (List Char)) :
    Except Fault (Int × AhoCorasick) :=
  if a.states.length ≠ 1 then .ok (-1, a) else
  match insert_patterns dict 0 a with
  | .error e => .error e
  | .ok a1 =>
    match a1.states[0]? with
    | none => .error .out_of_range
    | some root =>
      let states2 := a1.states.set 0 (add_root_loops a1.vocabulary root.get_entries root)
      match init_queue a1.vocabulary states2 [] with
      | .error e => .error e
      | .ok (states3, state_queue) =>
        match bfs states3.length states3 state_queue with
        | .error e => .error e
        | .ok states4 => .ok (0, { states := states4, vocabulary := a1.vocabulary })

/-- The loop over the queue (lines 212-236) with the front of the queue read as the
source reads it: `r` is a reference to the front element, `pop()` destroys this element,
and `locked_r(r)` reads it afterwards. The queue is a `std::deque` whose nodes hold `node`
elements each (512 bytes over the size of a `weak_ptr`, 32 elements, in libstdc++), filled
from the first slot of its first node; `popped` is the number of elements taken so far.
When the element is the last of its node, `pop()` releases the node and the read is a
read of released memory. Otherwise the memory of the element is still in place and the
read finds the state, as in `bfs`. -/
def bfs_by_reference (node : Nat) : Nat → Nat → List State → List Nat →
    Except Fault (List State)
  | _, _, states, [] => .ok states
  | 0, _, _, _ :: _ => .error .no_return
  | fuel + 1, popped, states, r :: state_queue =>
    if (popped + 1) % node = 0 then .error .dangling_reference else
    match states[r]? with
    | none => .error .bad_weak_ptr
    | some locked_r =>
      match bfs_children locked_r.get_entries r states state_queue with
      | .error e => .error e
      | .ok (states1, queue1) => bfs_by_reference node fuel (popped + 1) states1 queue1

/-- The member `AhoCorasick::initialize` with the loop over the queue as in
`bfs_by_reference`; `node` is the number of elements a node of the queue holds. -/
def AhoCorasick.initialize_by_reference (node : Nat) (a : AhoCorasick)
    (dict : List (List Char)) : Except Fault (Int × AhoCorasick) :=
  if a.states.length ≠ 1 then .ok (-1, a) else
  match insert_patterns dict 0 a with
  | .error e => .error e
  | .ok a1 =>
    match a1.states[0]? with
    | none => .error .out_of_range
    | some root =>
      let states2 := a1.states.set 0 (add_root_loops a1.vocabulary root.get_entries root)
      match init_queue a1.vocabulary states2 [] with
      | .error e => .error e
      | .ok (states3, state_queue) =>
        match bfs_by_reference node states3.length 0 states3 state_queue with
        | .error e => .error e
        | .ok states4 => .ok (0, { states := states4, vocabulary := a1.vocabulary })

/-- A call of the body `bfs_child` of the loop over the entries: the state `r` taken from
the queue, the entry `c`, and the states at the time of the call. The call makes one walk
along the fail pointers, `chase states.length states v0 c`, from the fail target `v0` of
`r`. -/
structure BfsCall where
  r : Nat
  c : Char
  states : List State

/-- The calls of `bfs_child` that `bfs_children` makes, in order. -/
def bfs_children_calls : List Char → Nat → List State → List Nat → List BfsCall
  | [], _, _, _ => []
  | c :: cs, r, states, state_queue =>
    { r := r, c := c, states := states } ::
      match bfs_child r c states state_queue with
      | .error _ => []
      | .ok (states1, queue1) => bfs_children_calls cs r states1 queue1

/-- The calls of `bfs_child` that `bfs` makes, in order. -/
def bfs_calls : Nat → List State → List Nat → List BfsCall
  | _, _, [] => []
  | 0, _, _ :: _ => []
  | fuel + 1, states, r :: state_queue =>
    match states[r]? with
    | none => []
    | some locked_r =>
      bfs_children_calls locked_r.get_entries r states state_queue ++
        match bfs_children locked_r.get_entries r states state_queue with
        | .error _ => []
        | .ok (states1, queue1) => bfs_calls fuel states1 queue1

/-- The calls of `bfs_child` that a run of `initialize` makes, in order. -/
def AhoCorasick.initialize_calls (a : AhoCorasick) (dict : List (List Char)) : List BfsCall :=
  if a.states.length ≠ 1 then [] else
  match insert_patterns dict 0 a with
  | .error _ => []
  | .ok a1 =>
    match a1.states[0]? with
    | none => []
    | some root =>
      let states2 := a1.states.set 0 (add_root_loops a1.vocabulary root.get_entries root)
      match init_queue a1.vocabulary states2 [] with
      | .error _ => []
      | .ok (states3, state_queue) => bfs_calls states3.length states3 state_queue

/-- The loop of `parse` over the symbols of the preprocessed text (lines 252-259) from
the state `q`: the ids appended to `result`. -/
def parse_loop : List Char → Nat → List State → Except Fault (List Nat)
  | [], _, _ => .ok []
  | c :: cs, q, states =>
    match chase states.length states q c with
    | .error e => .error e
    | .ok v =>
      match states[v]? with
      | none => .error .bad_weak_ptr
      | some locked_v =>
        match locked_v.go c with
        | none => .error .bad_weak_ptr
        | some q1 =>
          match states[q1]? with
          | none => .error .bad_weak_ptr
          | some locked_q =>
            match parse_loop cs q1 states with
            | .error e => .error e
            | .ok result => .ok (locked_q.outputs ++ result)

/-- The member `AhoCorasick::parse`: the list returned and the automaton afterwards. -/
def AhoCorasick.parse (a : AhoCorasick) (text : List Char) :
    Except Fault (List Nat × AhoCorasick) :=
  let s := preprocess_string a.vocabulary text false
  if a.states.length = 0 then .error .out_of_range else
  match parse_loop s.1 0 a.states with
  | .error e => .error e
  | .ok result => .ok (result, { a with vocabulary := s.2 })

/-! ## The words of the dictionary

The normalized patterns, the words of the trie (the prefixes of the patterns), and the
results the claims speak of. -/

/-- The symbol sequence of a pattern as the trie insertion sees it: the string
`preprocess_string(d, true)` returns (it does not depend on the vocabulary). -/
def normalize (d : List Char) : List Char := (preprocess_string [] d true).1

/-- The string in which every maximal run of consecutive spaces is replaced by a single
space and nothing else is changed: a space is left out exactly when a space follows
it. -/
def collapse_spaces : List Char → List Char
  | [] => []
  | c :: t => if c = ' ' ∧ t.head? = some ' ' then collapse_spaces t else c :: collapse_spaces t

/-- The ids of the patterns whose symbol sequence is `w`, in increasing order. -/
def own (pats : List (List Char)) (w : List Char) : List Nat :=
  (List.range pats.length).filter (fun i => pats[i]? = some w)

/-- The word `w` is spelled by a path of the trie of `pats` from the root: it is empty
or a prefix of a pattern. -/
def in_trie (pats : List (List Char)) (w : List Char) : Prop :=
  w = [] ∨ ∃ p ∈ pats, w <+: p

instance (pats : List (List Char)) (w : List Char) : Decidable (in_trie pats w) := by
  unfold in_trie; exact inferInstance

/-- The longest suffix of `w` that is a word of the trie. -/
def longest_suffix (pats : List (List Char)) : List Char → List Char
  | [] => []
  | a :: t => if in_trie pats (a :: t) then a :: t else longest_suffix pats t

/-- The output list the construction leaves at the state that spells `w`: the ids of
the patterns equal to `w`, then those of the shorter and shorter suffixes of `w`; the
ids of the empty patterns come last, and only when the one-symbol suffix of `w` is not a
word of the trie (a child of the root does not take over the outputs of the root). -/
def final_outputs (pats : List (List Char)) : List Char → List Nat
  | [] => own pats []
  | [b] => own pats [b] ++ (if in_trie pats [b] then [] else own pats [])
  | a :: b :: t => own pats (a :: b :: t) ++ final_outputs pats (b :: t)

/-- The ids that are due after the symbols `u` of a text: those of the patterns that
are a suffix of `u`, by decreasing length of the pattern and, for equal length, by
increasing id. -/
def ids_ending (pats : List (List Char)) (u : List Char) : List Nat :=
  (List.range (u.length + 1)).reverse.flatMap fun len =>
    (List.range pats.length).filter fun i =>
      (pats.getD i []).length = len ∧ pats.getD i [] <:+ u

/-- The result due for the symbol sequence `t`: position after position, the ids due
after the first `k` symbols, for `k = 1, ..., t.length`. -/
def expected_result (pats : List (List Char)) (t : List Char) : List Nat :=
  (List.range t.length).flatMap fun k => ids_ending pats (t.take (k + 1))

/-- The states `sts` form a trie whose state of index `s` spells the word `ws[s]`: the
root spells the empty word, distinct states spell distinct words, the words are closed
under dropping the last symbol, and an edge on `c` leaves the state of `w` for the state
of `w ++ [c]`. After the loops are added the root has moreover an edge to itself on each
symbol of `loops` that starts no word. -/
structure Trie (loops : List Char) (sts : List State) (ws : List (List Char)) : Prop where
  len : ws.length = sts.length
  root : ws[0]? = some []
  nodup : ws.Nodup
  closed : ∀ (w : List Char) (c : Char), w ++ [c] ∈ ws → w ∈ ws
  depth_le : ∀ (s : Nat) (w : List Char), ws[s]? = some w → w.length ≤ s
  go_iff : ∀ (s : Nat) (st : State) (w : List Char) (c : Char) (d : Nat),
    sts[s]? = some st → ws[s]? = some w →
    (st.go c = some d ↔
      (ws[d]? = some (w ++ [c]) ∨ (w = [] ∧ d = 0 ∧ c ∈ loops ∧ w ++ [c] ∉ ws)))

/-- The states `sts` are the trie of the patterns `pats` as the insertion loop leaves
it: the words are the prefixes of the patterns, the outputs of a state are the ids of
the patterns it spells, and no fail pointer is set. -/
structure TrieOf (pats : List (List Char)) (sts : List State) (ws : List (List Char)) :
    Prop where
  trie : Trie [] sts ws
  mem_iff : ∀ (w : List Char), w ∈ ws ↔ in_trie pats w
  outs : ∀ (s : Nat) (st : State) (w : List Char), sts[s]? = some st → ws[s]? = some w →
    st.outputs = own pats w
  nofail : ∀ (s : Nat) (st : State), sts[s]? = some st → st.fail = none

/-- The depth of the state `s`: the length of the word it spells. -/
def depth (ws : List (List Char)) (s : Nat) : Nat := (ws.getD s []).length

/-- What the state that spells `w` holds while the fail pointers are computed. Before its
fail pointer is set, its outputs are the ids of the patterns equal to `w`. Once it is
set, it points to the state of the longest proper suffix of `w` that is a word of the
trie, and the outputs are final. -/
def state_ok (pats : List (List Char)) (ws : List (List Char)) (w : List Char)
    (st : State) : Prop :=
  match st.fail with
  | none => st.outputs = own pats w
  | some f => w ≠ [] ∧ ws[f]? = some (longest_suffix pats w.tail) ∧
      st.outputs = final_outputs pats w

/-- The state `s` is the root or has its fail pointer set. -/
def is_done (sts : List State) (s : Nat) : Prop :=
  s = 0 ∨ ∃ st, sts[s]? = some st ∧ st.fail ≠ none

/-- The invariant of the computation of the fail pointers, in the loop over the entries
`cs` still to visit of the state `r` (the root in the loop over the vocabulary, the state
last taken from the queue afterwards). A state other than the root has its fail pointer
set exactly when its parent is done, has left the queue, and has visited the edge. -/
structure Bfs (pats : List (List Char)) (vocab : List Char) (sts : List State)
    (ws : List (List Char)) (queue : List Nat) (r : Nat) (cs : List Char) : Prop where
  trie : Trie vocab sts ws
  mem_iff : ∀ (w : List Char), w ∈ ws ↔ in_trie pats w
  chars : ∀ (w : List Char), w ∈ ws → ∀ c ∈ w, c ∈ vocab
  ok : ∀ (s : Nat) (st : State) (w : List Char), sts[s]? = some st → ws[s]? = some w →
    state_ok pats ws w st
  queue_nodup : queue.Nodup
  r_not_queue : r ∉ queue
  queue_done : ∀ q ∈ queue, q ≠ 0 ∧ ∃ st, sts[q]? = some st ∧ st.fail ≠ none
  r_done : is_done sts r
  cs_nodup : cs.Nodup
  cs_entries : ∀ c ∈ cs, ∃ st, sts[r]? = some st ∧ st.go c ≠ none
  done_iff : ∀ (s : Nat) (st : State) (w : List Char) (c : Char) (p : Nat),
    sts[s]? = some st → ws[s]? = some (w ++ [c]) → ws[p]? = some w →
    (st.fail ≠ none ↔ (is_done sts p ∧ p ∉ queue ∧ (p = r → c ∉ cs)))
  depth_queue : ∀ q ∈ queue, depth ws r ≤ depth ws q ∧ depth ws q ≤ depth ws r + 1
  sorted : queue.Pairwise (fun q1 q2 => depth ws q1 ≤ depth ws q2)

/-- The automaton `initialize` leaves for the patterns `pats`: the trie of `pats` with
the loops at the root, every state but the root with its fail pointer and final
outputs. -/
structure Built (pats : List (List Char)) (vocab : List Char) (sts : List State)
    (ws : List (List Char)) : Prop where
  trie : Trie vocab sts ws
  mem_iff : ∀ (w : List Char), w ∈ ws ↔ in_trie pats w
  chars : ∀ (w : List Char), w ∈ ws → ∀ c ∈ w, c ∈ vocab
  ok : ∀ (s : Nat) (st : State) (w : List Char), sts[s]? = some st → ws[s]? = some w →
    state_ok pats ws w st
  done : ∀ (s : Nat) (st : State), sts[s]? = some st → s ≠ 0 → st.fail ≠ none

/-- The state reached from the state `s` along the edges labelled with the symbols of
`w`, none of them an edge into the root: the loops at the root are not edges of the
trie. The state `u` spells the word `w` when `trie_walk states w 0 = some u`. -/
def trie_walk (states : List State) : List Char → Nat → Option Nat
  | [], s => some s
  | c :: cs, s =>
    match states[s]? with
    | none => none
    | some st =>
      match st.go c with
      | none => none
      | some d => if d = 0 then none else trie_walk states cs d

/-- The pattern list of an empty pattern followed by the pattern `"a"`. -/
def dict_with_empty : List (List Char) := ["".toList, "a".toList]

/-- Every state has at most one edge for each symbol. -/
def deterministic (states : List State) : Prop :=
  ∀ st ∈ states, (st.edges.map Edge.entry).Nodup

/-- The automata a caller can hold: the one the constructor returns, and the one a call
of `initialize` or of `parse` that returns leaves. -/
inductive Reachable : AhoCorasick → Prop
  | construct (vocab : List Char) : Reachable (AhoCorasick.mk_new vocab)
  | init_call {a : AhoCorasick} (dict : List (List Char)) (code : Int) (a1 : AhoCorasick) :
      Reachable a → a.initialize_ dict = .ok (code, a1) → Reachable a1
  | parse_call {a : AhoCorasick} (text : List Char) (r : List Nat) (a1 : AhoCorasick) :
      Reachable a → a.parse text = .ok (r, a1) → Reachable a1

/-- The dictionary of the test program (`main-test.cpp`). -/
def test_dict : List (List Char) := ["he".toList, "she".toList, "hers".toList, "his".toList]

/-- The automaton of the test program: `initialize(test_dict)` on the automaton
constructed with the empty vocabulary. -/
def test_automaton : AhoCorasick :=
  match (AhoCorasick.mk_new []).initialize_ test_dict with
  | .ok (_, a) => a
  | .error _ => AhoCorasick.mk_new []

/-! ## The normalizer -/

theorem set_insert_of_mem {c : Char} {s : List Char} (h : c ∈ s) : set_insert c s = s := by
  simp [set_insert, h]

theorem mem_set_insert {c x : Char} {s : List Char} :
    x ∈ set_insert c s ↔ x = c ∨ x ∈ s := by
  unfold set_insert
  split
  · constructor
    · intro h; exact Or.inr h
    · rintro (rfl | h)
      · assumption
      · exact h
  · simp [List.mem_orderedInsert]

theorem nodup_set_insert {c : Char} {s : List Char} (h : s.Nodup) : (set_insert c s).Nodup := by
  unfold set_insert
  split
  · exact h
  · rename_i hc
    exact ((List.perm_orderedInsert _ c s).nodup_iff).mpr (List.nodup_cons.mpr ⟨hc, h⟩)

/-- In query mode the vocabulary is left as it was. -/
theorem preprocess_loop_query_vocab (cs : List Char) (last_char : Char) (v : List Char) :
    (preprocess_loop false cs last_char v).2 = v := by
  induction cs generalizing last_char v with
  | nil => rfl
  | cons c cs ih =>
    unfold preprocess_loop
    simp only [and_true]
    split
    · exact ih _ _
    · rename_i hmem
      have hm : tolower c ∈ v := by simpa using hmem
      split
      · exact ih _ _
      · simp only [set_insert_of_mem hm]
        exact ih _ _

/-- In query mode every symbol put out is a member of the vocabulary. -/
theorem preprocess_loop_query_mem (cs : List Char) (last_char : Char) (v : List Char) :
    ∀ x ∈ (preprocess_loop false cs last_char v).1, x ∈ v := by
  induction cs generalizing last_char v with
  | nil => intro x hx; simp [preprocess_loop] at hx
  | cons c cs ih =>
    unfold preprocess_loop
    simp only [and_true]
    split
    · exact ih _ _
    · rename_i hmem
      have hm : tolower c ∈ v := by simpa using hmem
      split
      · exact ih _ _
      · simp only [set_insert_of_mem hm]
        intro x hx
        rcases List.mem_cons.mp hx with rfl | hx
        · exact hm
        · exact ih _ _ x hx

/-- The loop looks at its input only through `tolower`. -/
theorem preprocess_loop_congr (b : Bool) (t1 t2 : List Char) (h : t1.map tolower = t2.map tolower)
    (last_char : Char) (v : List Char) :
    preprocess_loop b t1 last_char v = preprocess_loop b t2 last_char v := by
  induction t1 generalizing t2 last_char v with
  | nil =>
    cases t2 with
    | nil => rfl
    | cons _ _ => simp at h
  | cons c cs ih =>
    cases t2 with
    | nil => simp at h
    | cons d ds =>
      simp only [List.map_cons, List.cons.injEq] at h
      obtain ⟨hc, hcs⟩ := h
      unfold preprocess_loop
      simp only [hc, ih ds hcs]

theorem preprocess_string_congr (b : Bool) (t1 t2 : List Char)
    (h : t1.map tolower = t2.map tolower) (v : List Char) :
    preprocess_string v t1 b = preprocess_string v t2 b := by
  unfold preprocess_string
  have hh : tolower (t1.headD (Char.ofNat 0)) = tolower (t2.headD (Char.ofNat 0)) := by
    cases t1 with
    | nil =>
      cases t2 with
      | nil => rfl
      | cons _ _ => simp at h
    | cons c cs =>
      cases t2 with
      | nil => simp at h
      | cons d ds =>
        simp only [List.map_cons, List.cons.injEq] at h
        simpa using h.1
  rw [hh, preprocess_loop_congr b t1 t2 h]

/-- In ingestion mode the string put out does not depend on the vocabulary. -/
theorem preprocess_loop_ingest_indep (cs : List Char) (last_char : Char) (v w : List Char) :
    (preprocess_loop true cs last_char v).1 = (preprocess_loop true cs last_char w).1 := by
  induction cs generalizing last_char v w with
  | nil => rfl
  | cons c cs ih =>
    unfold preprocess_loop
    simp only [Bool.true_eq_false, and_false, if_false]
    split
    · exact ih _ _ _
    · simp only [List.cons.injEq, true_and]
      exact ih _ _ _

theorem preprocess_loop_ingest_mem (cs : List Char) (last_char : Char) (v : List Char)
    (x : Char) :
    x ∈ (preprocess_loop true cs last_char v).2 ↔
      x ∈ v ∨ x ∈ (preprocess_loop true cs last_char v).1 := by
  induction cs generalizing last_char v with
  | nil => simp [preprocess_loop]
  | cons c cs ih =>
    unfold preprocess_loop
    simp only [Bool.true_eq_false, and_false, if_false]
    split
    · exact ih _ _
    · simp only [ih, mem_set_insert, List.mem_cons]
      constructor
      · rintro ((h | h) | h)
        · exact Or.inr (Or.inl h)
        · exact Or.inl h
        · exact Or.inr (Or.inr h)
      · rintro (h | h | h)
        · exact Or.inl (Or.inr h)
        · exact Or.inl (Or.inl h)
        · exact Or.inr h

theorem preprocess_loop_ingest_nodup (cs : List Char) (last_char : Char) (v : List Char)
    (h : v.Nodup) : (preprocess_loop true cs last_char v).2.Nodup := by
  induction cs generalizing last_char v with
  | nil => exact h
  | cons c cs ih =>
    unfold preprocess_loop
    simp only [Bool.true_eq_false, and_false, if_false]
    split
    · exact ih _ _ h
    · exact ih _ _ (nodup_set_insert h)

theorem preprocess_string_ingest_fst (v : List Char) (d : List Char) :
    (preprocess_string v d true).1 = normalize d :=
  preprocess_loop_ingest_indep _ _ _ _

theorem collapse_spaces_cons (x : Char) (t : List Char) :
    ∃ r, collapse_spaces (x :: t) = x :: r := by
  induction t generalizing x with
  | nil => exact ⟨[], by simp [collapse_spaces]⟩
  | cons y t ih =>
    unfold collapse_spaces
    split
    · rename_i h
      obtain ⟨hx, hy⟩ := h
      simp only [List.head?_cons, Option.some.injEq] at hy
      subst hx hy
      exact ih ' '
    · exact ⟨_, rfl⟩

theorem preprocess_loop_ingest_eq (cs : List Char) (last_char : Char) (v : List Char) :
    (preprocess_loop true cs last_char v).1 =
      (collapse_spaces (last_char :: cs.map tolower)).tail := by
  induction cs generalizing last_char v with
  | nil => simp [preprocess_loop, collapse_spaces]
  | cons c cs ih =>
    unfold preprocess_loop
    simp only [Bool.true_eq_false, and_false, if_false, List.map_cons]
    split
    · rename_i h
      obtain ⟨h1, h2⟩ := h
      rw [ih]
      conv_rhs => unfold collapse_spaces
      rw [if_pos ⟨h1, by simp [← h2, h1]⟩]
    · rename_i h
      simp only [ih]
      conv_rhs => unfold collapse_spaces
      rw [if_neg (by
        rintro ⟨h1, h2⟩
        simp only [List.head?_cons, Option.some.injEq] at h2
        exact h ⟨h1, by rw [h1, h2]⟩)]
      obtain ⟨r, hr⟩ := collapse_spaces_cons (tolower c) (cs.map tolower)
      simp [hr]

/-- What `preprocess_string(s, true)` returns: the case-folded string with every run of
spaces replaced by a single space, less the space at its start if there is one. -/
theorem normalize_eq (s : List Char) :
    normalize s =
      if (s.map tolower).head? = some ' ' then (collapse_spaces (s.map tolower)).tail
      else collapse_spaces (s.map tolower) := by
  unfold normalize preprocess_string
  rw [preprocess_loop_ingest_eq]
  cases s with
  | nil => simp [collapse_spaces]
  | cons c t =>
    simp only [List.headD_cons, List.map_cons, List.head?_cons, Option.some.injEq]
    by_cases h : tolower c = ' '
    · rw [if_pos h]
      conv_lhs => unfold collapse_spaces
      rw [if_pos ⟨h, by simp [h]⟩]
    · rw [if_neg h]
      conv_lhs => unfold collapse_spaces
      rw [if_neg (fun h2 => h h2.1)]
      rfl

/-! ## Words, suffixes and outputs -/

theorem in_trie_nil (pats : List (List Char)) : in_trie pats [] := Or.inl rfl

theorem in_trie_of_append {pats : List (List Char)} {w v : List Char}
    (h : in_trie pats (w ++ v)) : in_trie pats w := by
  rcases h with h | ⟨p, hp, hpre⟩
  · left
    exact (List.append_eq_nil.mp h).1
  · right
    exact ⟨p, hp, (List.prefix_append w v).trans hpre⟩

theorem in_trie_of_mem {pats : List (List Char)} {p : List Char} (h : p ∈ pats) :
    in_trie pats p := Or.inr ⟨p, h, List.prefix_rfl⟩

theorem own_eq_nil {pats : List (List Char)} {w : List Char} (h : w ∉ pats) :
    own pats w = [] := by
  unfold own
  rw [List.filter_eq_nil_iff]
  intro i _ hi
  apply h
  simp only [decide_eq_true_eq] at hi
  exact List.mem_iff_getElem?.mpr ⟨i, hi⟩

theorem own_eq_nil_of_not_in_trie {pats : List (List Char)} {w : List Char}
    (h : ¬ in_trie pats w) : own pats w = [] :=
  own_eq_nil (fun hm => h (in_trie_of_mem hm))

theorem mem_own {pats : List (List Char)} {w : List Char} {i : Nat} :
    i ∈ own pats w ↔ pats[i]? = some w := by
  unfold own
  simp only [List.mem_filter, List.mem_range, decide_eq_true_eq, and_iff_right_iff_imp]
  intro h
  exact (List.getElem?_eq_some.mp h).1

theorem own_append_singleton (pats : List (List Char)) (p w : List Char) :
    own (pats ++ [p]) w = own pats w ++ (if p = w then [pats.length] else []) := by
  unfold own
  simp only [List.length_append, List.length_singleton, List.range_succ, List.filter_append]
  congr 1
  · apply List.filter_congr
    intro i hi
    rw [List.getElem?_append_left (List.mem_range.mp hi)]
  · by_cases h : p = w <;> simp [h]

theorem longest_suffix_in_trie (pats : List (List Char)) (t : List Char) :
    in_trie pats (longest_suffix pats t) := by
  induction t with
  | nil => exact in_trie_nil pats
  | cons a t ih =>
    unfold longest_suffix
    split
    · assumption
    · exact ih

theorem longest_suffix_of_in_trie {pats : List (List Char)} {t : List Char}
    (h : in_trie pats t) : longest_suffix pats t = t := by
  cases t with
  | nil => rfl
  | cons a t => simp [longest_suffix, h]

theorem longest_suffix_suffix (pats : List (List Char)) (t : List Char) :
    longest_suffix pats t <:+ t := by
  induction t with
  | nil => exact List.suffix_rfl
  | cons a t ih =>
    unfold longest_suffix
    split
    · exact List.suffix_rfl
    · exact ih.trans (List.suffix_cons a t)

theorem longest_suffix_length_le (pats : List (List Char)) (t : List Char) :
    (longest_suffix pats t).length ≤ t.length :=
  (longest_suffix_suffix pats t).length_le

/-- The step of the fail-link walk on words: the longest suffix of `t ++ [c]` is found
from the longest suffix of `t`. -/
theorem longest_suffix_snoc (pats : List (List Char)) (t : List Char) (c : Char) :
    longest_suffix pats (t ++ [c]) = longest_suffix pats (longest_suffix pats t ++ [c]) := by
  induction t with
  | nil => rfl
  | cons a t ih =>
    by_cases h : in_trie pats (a :: t)
    · rw [longest_suffix_of_in_trie h]
    · have h2 : ¬ in_trie pats (a :: t ++ [c]) := fun h3 => h (in_trie_of_append h3)
      have e1 : longest_suffix pats (a :: t ++ [c]) = longest_suffix pats (t ++ [c]) := by
        simp only [List.cons_append] at h2 ⊢
        simp [longest_suffix, h2]
      have e2 : longest_suffix pats (a :: t) = longest_suffix pats t := by
        simp [longest_suffix, h]
      rw [e1, e2, ih]

theorem longest_suffix_cons_snoc {pats : List (List Char)} {a : Char} {t : List Char}
    {c : Char} (h : ¬ in_trie pats (a :: t ++ [c])) :
    longest_suffix pats (a :: t ++ [c]) = longest_suffix pats (t ++ [c]) := by
  simp only [List.cons_append] at h ⊢
  simp [longest_suffix, h]

theorem final_outputs_longest_suffix (pats : List (List Char)) (t : List Char) :
    final_outputs pats (longest_suffix pats t) = final_outputs pats t := by
  induction t with
  | nil => rfl
  | cons a t ih =>
    by_cases h : in_trie pats (a :: t)
    · rw [longest_suffix_of_in_trie h]
    · have e2 : longest_suffix pats (a :: t) = longest_suffix pats t := by
        simp [longest_suffix, h]
      rw [e2, ih]
      cases t with
      | nil => simp [final_outputs, h, own_eq_nil_of_not_in_trie h]
      | cons b t => simp [final_outputs, own_eq_nil_of_not_in_trie h]

theorem final_outputs_cons_cons (pats : List (List Char)) (a b : Char) (t : List Char) :
    final_outputs pats (a :: b :: t) = own pats (a :: b :: t) ++ final_outputs pats (b :: t) :=
  rfl

/-- Without an empty pattern the output list of a word is made of the ids of its
suffixes, from the longest to the shortest. -/
theorem final_outputs_eq_tails {pats : List (List Char)} (hne : [] ∉ pats) (t : List Char) :
    final_outputs pats t = t.tails.flatMap (own pats) := by
  have h0 : own pats [] = [] := own_eq_nil hne
  induction t with
  | nil => simp [final_outputs, h0]
  | cons a t ih =>
    cases t with
    | nil => simp [final_outputs, h0]
    | cons b t =>
      rw [final_outputs_cons_cons, ih]
      simp [List.tails]

theorem ids_ending_nil (pats : List (List Char)) : ids_ending pats [] = own pats [] := by
  unfold ids_ending own
  have e : (List.range ([] : List Char).length.succ).reverse = [0] := rfl
  rw [e]
  simp only [List.flatMap_cons, List.flatMap_nil, List.append_nil]
  apply List.filter_congr
  intro i hi
  have hi2 := List.mem_range.mp hi
  rw [List.getD_eq_getElem _ _ hi2, List.getElem?_eq_getElem hi2]
  simp only [List.suffix_nil, List.length_eq_zero, Option.some.injEq]
  by_cases h : pats[i] = [] <;> simp [h]

theorem ids_ending_cons (pats : List (List Char)) (a : Char) (t : List Char) :
    ids_ending pats (a :: t) = own pats (a :: t) ++ ids_ending pats t := by
  unfold ids_ending own
  rw [List.range_succ, List.reverse_append, List.reverse_singleton, List.singleton_append,
    List.flatMap_cons]
  congr 1
  · apply List.filter_congr
    intro i hi
    have hi2 := List.mem_range.mp hi
    rw [List.getD_eq_getElem _ _ hi2, List.getElem?_eq_getElem hi2]
    simp only [Option.some.injEq, decide_eq_decide]
    constructor
    · rintro ⟨h1, h2⟩
      exact h2.eq_of_length h1
    · intro h
      rw [h]
      exact ⟨rfl, List.suffix_rfl⟩
  · apply List.flatMap_congr
    intro len hlen
    have hl : len < t.length + 1 := by
      have := List.mem_reverse.mp hlen
      simpa using this
    apply List.filter_congr
    intro i _
    simp only [decide_eq_decide]
    constructor
    · rintro ⟨h1, h2⟩
      refine ⟨h1, ?_⟩
      rcases List.suffix_cons_iff.mp h2 with h3 | h3
      · rw [h3] at h1
        simp only [List.length_cons] at h1
        omega
      · exact h3
    · rintro ⟨h1, h2⟩
      exact ⟨h1, h2.trans (List.suffix_cons a t)⟩

theorem ids_ending_eq_tails (pats : List (List Char)) (u : List Char) :
    ids_ending pats u = u.tails.flatMap (own pats) := by
  induction u with
  | nil => simp [ids_ending_nil]
  | cons a t ih => rw [ids_ending_cons, ih]; simp

/-! ## Edges and entries -/

theorem getElem?_snoc_eq_some {α : Type} (l : List α) (x y : α) (d : Nat) :
    (l ++ [x])[d]? = some y ↔ l[d]? = some y ∨ (d = l.length ∧ x = y) := by
  rcases Nat.lt_trichotomy d l.length with h | h | h
  · rw [List.getElem?_append_left h]
    constructor
    · intro h1; exact Or.inl h1
    · rintro (h1 | ⟨h1, _⟩)
      · exact h1
      · omega
  · subst h
    rw [List.getElem?_concat_length, List.getElem?_eq_none (Nat.le_refl _)]
    simp
  · rw [List.getElem?_eq_none (by simp; omega), List.getElem?_eq_none (by omega)]
    constructor
    · intro h1; cases h1
    · rintro (h1 | ⟨h1, _⟩)
      · cases h1
      · omega

theorem go_edges_append (es fs : List Edge) (c : Char) :
    go_edges (es ++ fs) c = if go_edges es c = none then go_edges fs c else go_edges es c := by
  induction es with
  | nil => simp [go_edges]
  | cons e es ih =>
    simp only [List.cons_append, go_edges]
    split
    · simp
    · exact ih

theorem go_edges_ne_none_iff (es : List Edge) (c : Char) :
    go_edges es c ≠ none ↔ ∃ e ∈ es, e.entry = c := by
  induction es with
  | nil => simp [go_edges]
  | cons e es ih =>
    simp only [go_edges]
    split
    · rename_i h
      simp [h]
    · rename_i h
      rw [ih]
      simp [h]

theorem add_child_go (st : State) (c : Char) (d : Nat) (c1 : Char) :
    (st.add_child c d).2.go c1 = if st.go c1 = none ∧ c1 = c then some d else st.go c1 := by
  unfold State.add_child
  split
  · rename_i h
    split
    · rename_i h2
      obtain ⟨h3, rfl⟩ := h2
      rw [h3] at h
      simp at h
    · rfl
  · rename_i h
    simp only [State.go, go_edges_append]
    have hn : go_edges st.edges c = none := by
      simpa [State.go] using h
    by_cases h1 : go_edges st.edges c1 = none
    · by_cases h2 : c1 = c
      · subst h2
        simp [h1, go_edges]
      · have h3 : ¬ c = c1 := fun h => h2 h.symm
        simp [h1, h2, h3, go_edges]
    · simp [h1]

theorem add_child_outputs (st : State) (c : Char) (d : Nat) :
    (st.add_child c d).2.outputs = st.outputs := by
  unfold State.add_child
  split <;> rfl

theorem add_child_fail (st : State) (c : Char) (d : Nat) :
    (st.add_child c d).2.fail = st.fail := by
  unfold State.add_child
  split <;> rfl

theorem mem_foldl_set_insert (es : List Edge) (acc : List Char) (x : Char) :
    x ∈ es.foldl (fun ls e => set_insert e.entry ls) acc ↔ x ∈ acc ∨ ∃ e ∈ es, e.entry = x := by
  induction es generalizing acc with
  | nil => simp
  | cons e es ih =>
    simp only [List.foldl_cons, ih, mem_set_insert, List.mem_cons, exists_eq_or_imp]
    constructor
    · rintro ((rfl | h) | h)
      · exact Or.inr (Or.inl rfl)
      · exact Or.inl h
      · exact Or.inr (Or.inr h)
    · rintro (h | h | h)
      · exact Or.inl (Or.inr h)
      · exact Or.inl (Or.inl h.symm)
      · exact Or.inr h

theorem nodup_foldl_set_insert (es : List Edge) (acc : List Char) (h : acc.Nodup) :
    (es.foldl (fun ls e => set_insert e.entry ls) acc).Nodup := by
  induction es generalizing acc with
  | nil => exact h
  | cons e es ih => exact ih _ (nodup_set_insert h)

theorem mem_get_entries (st : State) (c : Char) : c ∈ st.get_entries ↔ st.go c ≠ none := by
  unfold State.get_entries State.go
  rw [mem_foldl_set_insert, go_edges_ne_none_iff]
  simp

theorem nodup_get_entries (st : State) : st.get_entries.Nodup :=
  nodup_foldl_set_insert _ _ List.nodup_nil

/-! ## The trie -/

theorem Trie.state_of_word {loops : List Char} {sts : List State} {ws : List (List Char)}
    (T : Trie loops sts ws) {s : Nat} {w : List Char} (h : ws[s]? = some w) :
    ∃ st, sts[s]? = some st := by
  have h1 : s < sts.length := T.len ▸ (List.getElem?_eq_some.mp h).1
  exact ⟨sts[s], List.getElem?_eq_getElem h1⟩

theorem Trie.word_of_state {loops : List Char} {sts : List State} {ws : List (List Char)}
    (T : Trie loops sts ws) {s : Nat} {st : State} (h : sts[s]? = some st) :
    ∃ w, ws[s]? = some w := by
  have h1 : s < ws.length := T.len ▸ (List.getElem?_eq_some.mp h).1
  exact ⟨ws[s], List.getElem?_eq_getElem h1⟩

theorem Trie.inj {loops : List Char} {sts : List State} {ws : List (List Char)}
    (T : Trie loops sts ws) {s1 s2 : Nat} {w : List Char} (h1 : ws[s1]? = some w)
    (h2 : ws[s2]? = some w) : s1 = s2 := by
  obtain ⟨l1, e1⟩ := List.getElem?_eq_some.mp h1
  obtain ⟨l2, e2⟩ := List.getElem?_eq_some.mp h2
  exact (T.nodup.getElem_inj_iff).mp (e1.trans e2.symm)

theorem Trie.closed_append {loops : List Char} {sts : List State} {ws : List (List Char)}
    (T : Trie loops sts ws) (w v : List Char) (h : w ++ v ∈ ws) : w ∈ ws := by
  induction v using List.reverseRecOn with
  | nil => simpa using h
  | append_singleton v c ih =>
    apply ih
    apply T.closed _ c
    simpa [List.append_assoc] using h

theorem Trie.length_lt {loops : List Char} {sts : List State} {ws : List (List Char)}
    (T : Trie loops sts ws) {s : Nat} {w : List Char} (h : ws[s]? = some w) :
    w.length < sts.length := by
  have h1 := T.depth_le s w h
  have h2 : s < sts.length := T.len ▸ (List.getElem?_eq_some.mp h).1
  omega

/-- Adding a state for the missing edge on `c` of the state `p` keeps the trie. -/
theorem trie_add_state {sts : List State} {ws : List (List Char)} {p : Nat} {st : State}
    {w0 : List Char} {c : Char} (T : Trie [] sts ws) (hp : sts[p]? = some st)
    (hw : ws[p]? = some w0) (hgo : st.go c = none) :
    Trie [] (sts.set p (st.add_child c sts.length).2 ++ [({} : State)])
      (ws ++ [w0 ++ [c]]) := by
  have hnew : w0 ++ [c] ∉ ws := by
    intro hm
    obtain ⟨d, hd⟩ := List.mem_iff_getElem?.mp hm
    have := (T.go_iff p st w0 c d hp hw).mpr (Or.inl hd)
    rw [hgo] at this
    cases this
  have hplt : p < sts.length := (List.getElem?_eq_some.mp hp).1
  have hlen := T.len
  refine ⟨?_, ?_, ?_, ?_, ?_, ?_⟩
  · simp [T.len]
  · rw [List.getElem?_append_left (by omega)]
    exact T.root
  · rw [List.nodup_append]
    refine ⟨T.nodup, List.nodup_singleton _, ?_⟩
    intro x hx hx2
    rw [List.mem_singleton] at hx2
    exact hnew (hx2 ▸ hx)
  · intro w c1 hm
    rw [List.mem_append, List.mem_singleton] at hm
    rw [List.mem_append]
    left
    rcases hm with hm | hm
    · exact T.closed w c1 hm
    · have := List.append_inj_left' hm (by simp)
      rw [this]
      exact List.mem_iff_getElem?.mpr ⟨p, hw⟩
  · intro s w h
    rcases (getElem?_snoc_eq_some _ _ _ _).mp h with h1 | ⟨h1, h2⟩
    · exact T.depth_le s w h1
    · have := T.depth_le p w0 hw
      rw [← h2]
      simp only [List.length_append, List.length_singleton]
      omega
  · intro s st1 w c1 d hs hws
    have hfalse : ∀ (x : List Char), (x = [] ∧ d = 0 ∧ c1 ∈ ([] : List Char) ∧
        x ++ [c1] ∉ ws ++ [w0 ++ [c]]) ↔ False := by
      intro x
      simp
    rw [hfalse, or_false, getElem?_snoc_eq_some]
    rcases (getElem?_snoc_eq_some _ _ _ _).mp hws with h1 | ⟨h1, h2⟩
    · have hslt : s < sts.length := hlen ▸ (List.getElem?_eq_some.mp h1).1
      rw [List.getElem?_append_left (by simp; omega)] at hs
      by_cases hsp : s = p
      · subst hsp
        rw [List.getElem?_set_self hslt] at hs
        have hw1 : w = w0 := by
          rw [hw] at h1
          exact (Option.some.inj h1).symm
        subst hw1
        have hst : st1 = (st.add_child c sts.length).2 := (Option.some.inj hs).symm
        rw [hst, add_child_go]
        have hold := T.go_iff s st w c1 d hp hw
        simp only [List.not_mem_nil, false_and, and_false, or_false] at hold
        by_cases hc : c1 = c
        · subst hc
          simp only [hgo, and_self, if_true, Option.some.injEq]
          constructor
          · intro h; exact Or.inr ⟨by omega, trivial⟩
          · rintro (h | ⟨h, _⟩)
            · exact absurd (List.mem_iff_getElem?.mpr ⟨d, h⟩) hnew
            · omega
        · simp only [hc, and_false, if_false]
          rw [hold]
          constructor
          · intro h; exact Or.inl h
          · rintro (h | ⟨_, h⟩)
            · exact h
            · exact absurd (List.append_inj_right' h rfl) (by
                simp only [List.cons.injEq, and_true]
                exact fun h => hc h.symm)
      · rw [List.getElem?_set_ne (fun h => hsp h.symm)] at hs
        have hold := T.go_iff s st1 w c1 d hs h1
        simp only [List.not_mem_nil, false_and, and_false, or_false] at hold
        rw [hold]
        constructor
        · intro h; exact Or.inl h
        · rintro (h | ⟨_, h⟩)
          · exact h
          · have hww : w0 = w := List.append_inj_left' h rfl
            subst hww
            exact absurd (T.inj h1 hw) hsp
    · have hs2 : s = sts.length := by omega
      subst hs2
      have e : (sts.set p (st.add_child c sts.length).2 ++ [({} : State)])[sts.length]? =
          some {} := by
        have := List.getElem?_concat_length (sts.set p (st.add_child c sts.length).2)
          ({} : State)
        simp
      rw [e] at hs
      have hst : st1 = {} := (Option.some.inj hs).symm
      subst hst
      subst h2
      simp only [State.go, go_edges]
      constructor
      · intro h; cases h
      rintro (h | ⟨_, h⟩)
      · have hm : w0 ++ [c] ++ [c1] ∈ ws := List.mem_iff_getElem?.mpr ⟨d, h⟩
        exact absurd (T.closed _ _ hm) hnew
      · have := congrArg List.length h
        simp at this

/-- The walk of one pattern through the trie: it ends at the state that spells the
pattern, keeps the trie, and leaves the outputs and fail pointers as they were. -/
theorem insert_symbols_spec (cs : List Char) :
    ∀ (p : Nat) (sts : List State) (ws : List (List Char)) (w0 : List Char),
    Trie [] sts ws → ws[p]? = some w0 →
    ∃ p1 sts1 new, insert_symbols cs p sts = .ok (p1, sts1) ∧ Trie [] sts1 (ws ++ new) ∧
      (ws ++ new)[p1]? = some (w0 ++ cs) ∧
      (∀ w ∈ new, w <+: w0 ++ cs) ∧
      (∀ (s : Nat) (st : State), sts[s]? = some st →
        ∃ st1, sts1[s]? = some st1 ∧ st1.outputs = st.outputs ∧ st1.fail = st.fail) ∧
      (∀ (s : Nat) (st1 : State), sts.length ≤ s → sts1[s]? = some st1 →
        st1.outputs = [] ∧ st1.fail = none) := by
  induction cs with
  | nil =>
    intro p sts ws w0 T hw
    refine ⟨p, sts, [], rfl, by simpa using T, by simpa using hw, by simp,
      fun s st h => ⟨st, h, rfl, rfl⟩, ?_⟩
    intro s st1 hle h
    rw [List.getElem?_eq_none hle] at h
    cases h
  | cons c cs ih =>
    intro p sts ws w0 T hw
    obtain ⟨st, hp⟩ := T.state_of_word hw
    have hplt : p < sts.length := (List.getElem?_eq_some.mp hp).1
    cases hgo : st.go c with
    | some child =>
      have hc := (T.go_iff p st w0 c child hp hw).mp hgo
      simp only [List.not_mem_nil, false_and, and_false, or_false] at hc
      obtain ⟨p1, sts1, new, h1, h2, h3, h4, h5, h6⟩ := ih child sts ws (w0 ++ [c]) T hc
      refine ⟨p1, sts1, new, ?_, h2, by simpa using h3, by simpa using h4, h5, h6⟩
      simp only [insert_symbols, hp, hgo]
      exact h1
    | none =>
      have T1 := trie_add_state T hp hw hgo
      have hn : (ws ++ [w0 ++ [c]])[sts.length]? = some (w0 ++ [c]) := by
        rw [← T.len]
        exact List.getElem?_concat_length _ _
      obtain ⟨p1, sts1, new, h1, h2, h3, h4, h5, h6⟩ := ih sts.length _ _ (w0 ++ [c]) T1 hn
      refine ⟨p1, sts1, (w0 ++ [c]) :: new, ?_, by simpa using h2, by simpa using h3, ?_, ?_, ?_⟩
      · simp only [insert_symbols, hp, hgo]
        simpa using h1
      · intro w hwm
        rcases List.mem_cons.mp hwm with rfl | hwm
        · exact List.prefix_append_right_inj _ |>.mpr (by simp)
        · simpa using h4 w hwm
      · intro s st0 hs
        have hslt : s < sts.length := (List.getElem?_eq_some.mp hs).1
        have : ∃ st2, (sts.set p (st.add_child c sts.length).2 ++ [({} : State)])[s]? = some st2 ∧
            st2.outputs = st0.outputs ∧ st2.fail = st0.fail := by
          rw [List.getElem?_append_left (by simp; omega)]
          by_cases hsp : s = p
          · subst hsp
            rw [List.getElem?_set_self hslt]
            rw [hp] at hs
            cases hs
            exact ⟨_, rfl, add_child_outputs _ _ _, add_child_fail _ _ _⟩
          · rw [List.getElem?_set_ne (fun h => hsp h.symm)]
            exact ⟨st0, hs, rfl, rfl⟩
        obtain ⟨st2, e1, e2, e3⟩ := this
        obtain ⟨st3, e4, e5, e6⟩ := h5 s st2 e1
        exact ⟨st3, e4, e5.trans e2, e6.trans e3⟩
      · intro s st1 hle hs
        by_cases hs2 : s = sts.length
        · subst hs2
          have e : (sts.set p (st.add_child c sts.length).2 ++ [({} : State)])[sts.length]? =
              some {} := by
            have := List.getElem?_concat_length (sts.set p (st.add_child c sts.length).2)
              ({} : State)
            simp
          obtain ⟨st3, e4, e5, e6⟩ := h5 _ _ e
          rw [e4] at hs
          cases hs
          exact ⟨e5, e6⟩
        · exact h6 s st1 (by simp; omega) hs

/-- Replacing a state by one with the same edges keeps the trie. -/
theorem trie_set_same_go {loops : List Char} {sts : List State} {ws : List (List Char)}
    {p : Nat} {st st1 : State} (T : Trie loops sts ws) (hp : sts[p]? = some st)
    (hgo : ∀ c, st1.go c = st.go c) : Trie loops (sts.set p st1) ws := by
  have hplt : p < sts.length := (List.getElem?_eq_some.mp hp).1
  refine ⟨by simp [T.len], T.root, T.nodup, T.closed, T.depth_le, ?_⟩
  intro s st2 w c d hs hw
  by_cases hsp : s = p
  · subst hsp
    rw [List.getElem?_set_self hplt] at hs
    cases hs
    rw [hgo]
    exact T.go_iff s st w c d hp hw
  · rw [List.getElem?_set_ne (fun h => hsp h.symm)] at hs
    exact T.go_iff s st2 w c d hs hw

theorem in_trie_append_left {pats : List (List Char)} {w : List Char} (qs : List (List Char))
    (h : in_trie pats w) : in_trie (pats ++ qs) w := by
  rcases h with h | ⟨p, hp, hpre⟩
  · exact Or.inl h
  · exact Or.inr ⟨p, List.mem_append_left _ hp, hpre⟩

/-- The insertion of one more pattern `s` (of id `pats.length`) into the trie of
`pats`. -/
theorem trie_of_insert {pats : List (List Char)} {sts : List State} {ws : List (List Char)}
    (T : TrieOf pats sts ws) (s : List Char) :
    ∃ p1 sts1 st ws1, insert_symbols s 0 sts = .ok (p1, sts1) ∧ sts1[p1]? = some st ∧
      TrieOf (pats ++ [s]) (sts1.set p1 (st.add_output pats.length)) ws1 := by
  obtain ⟨p1, sts1, new, h1, h2, h3, h4, h5, h6⟩ :=
    insert_symbols_spec s 0 sts ws [] T.trie T.trie.root
  simp only [List.nil_append] at h3 h4
  obtain ⟨st, hst⟩ := h2.state_of_word h3
  refine ⟨p1, sts1, st, ws ++ new, h1, hst, ?_⟩
  have hp1 : p1 < sts1.length := (List.getElem?_eq_some.mp hst).1
  -- the outputs and fail pointers after the walk
  have hold : ∀ (i : Nat) (st1 : State) (w : List Char), sts1[i]? = some st1 →
      (ws ++ new)[i]? = some w → st1.outputs = own pats w ∧ st1.fail = none := by
    intro i st1 w hi hw
    by_cases hlt : i < sts.length
    · have hw0 : ws[i]? = some w := by
        rwa [List.getElem?_append_left (by rw [T.trie.len]; exact hlt)] at hw
      obtain ⟨st0, hs0⟩ := T.trie.state_of_word hw0
      obtain ⟨st2, e1, e2, e3⟩ := h5 i st0 hs0
      rw [e1] at hi
      cases hi
      exact ⟨e2.trans (T.outs i st0 w hs0 hw0), e3.trans (T.nofail i st0 hs0)⟩
    · obtain ⟨e1, e2⟩ := h6 i st1 (by omega) hi
      refine ⟨?_, e2⟩
      rw [e1]
      symm
      apply own_eq_nil_of_not_in_trie
      intro hin
      have hm : w ∈ ws := (T.mem_iff w).mpr hin
      obtain ⟨k, hk⟩ := List.mem_iff_getElem?.mp hm
      have hk2 : (ws ++ new)[k]? = some w := by
        rw [List.getElem?_append_left (List.getElem?_eq_some.mp hk).1]
        exact hk
      have := h2.inj hk2 hw
      have hklt : k < ws.length := (List.getElem?_eq_some.mp hk).1
      rw [T.trie.len] at hklt
      omega
  refine ⟨trie_set_same_go h2 hst (fun c => rfl), ?_, ?_, ?_⟩
  · intro w
    constructor
    · intro hm
      rcases List.mem_append.mp hm with hm | hm
      · exact in_trie_append_left _ ((T.mem_iff w).mp hm)
      · exact Or.inr ⟨s, by simp, h4 w hm⟩
    · rintro (h | ⟨p, hp, hpre⟩)
      · subst h
        exact List.mem_iff_getElem?.mpr ⟨0, h2.root⟩
      · rcases List.mem_append.mp hp with hp | hp
        · exact List.mem_append_left _ ((T.mem_iff w).mpr (Or.inr ⟨p, hp, hpre⟩))
        · rw [List.mem_singleton] at hp
          subst hp
          obtain ⟨v, rfl⟩ := hpre
          exact h2.closed_append w v (List.mem_iff_getElem?.mpr ⟨p1, h3⟩)
  · intro i st1 w hi hw
    rw [own_append_singleton]
    by_cases hip : i = p1
    · subst hip
      rw [List.getElem?_set_self hp1] at hi
      cases hi
      rw [h3] at hw
      cases hw
      simp [State.add_output, (hold i st s hst h3).1]
    · rw [List.getElem?_set_ne (fun h => hip h.symm)] at hi
      have hne : ¬ s = w := by
        intro h
        subst h
        exact hip (h2.inj hw h3)
      simp [hne, (hold i st1 w hi hw).1]
  · intro i st1 hi
    by_cases hip : i = p1
    · subst hip
      rw [List.getElem?_set_self hp1] at hi
      cases hi
      exact (hold i st s hst h3).2
    · rw [List.getElem?_set_ne (fun h => hip h.symm)] at hi
      obtain ⟨w, hw⟩ := h2.word_of_state hi
      exact (hold i st1 w hi hw).2

/-- The insertion loop: from the trie of the patterns `pats` it reaches the trie of
`pats` followed by the normalized patterns of `ds`, and the vocabulary gains the
symbols of these. -/
theorem insert_patterns_spec (ds : List (List Char)) :
    ∀ (pats : List (List Char)) (a : AhoCorasick) (ws : List (List Char)),
    TrieOf pats a.states ws → a.vocabulary.Nodup →
    ∃ a1 ws1, insert_patterns ds pats.length a = .ok a1 ∧
      TrieOf (pats ++ ds.map normalize) a1.states ws1 ∧ a1.vocabulary.Nodup ∧
      (∀ (c : Char), c ∈ a1.vocabulary ↔
        c ∈ a.vocabulary ∨ ∃ p ∈ ds.map normalize, c ∈ p) := by
  induction ds with
  | nil =>
    intro pats a ws T hv
    exact ⟨a, ws, rfl, by simpa using T, hv, by simp⟩
  | cons d ds ih =>
    intro pats a ws T hv
    have hlen : a.states.length ≠ 0 := by
      have := T.trie.len
      have h0 := (List.getElem?_eq_some.mp T.trie.root).1
      omega
    obtain ⟨p1, sts1, st, ws1, h1, h2, h3⟩ := trie_of_insert T (normalize d)
    have hv1 : (preprocess_string a.vocabulary d true).2.Nodup :=
      preprocess_loop_ingest_nodup _ _ _ hv
    obtain ⟨a1, ws2, e1, e2, e3, e4⟩ := ih (pats ++ [normalize d])
      { states := sts1.set p1 (st.add_output pats.length),
        vocabulary := (preprocess_string a.vocabulary d true).2 } ws1 h3 hv1
    refine ⟨a1, ws2, ?_, by simpa using e2, e3, ?_⟩
    · simp only [insert_patterns, hlen, if_false, preprocess_string_ingest_fst, h1, h2]
      simpa using e1
    · intro c
      rw [e4]
      simp only [preprocess_string, preprocess_loop_ingest_mem, List.map_cons, List.mem_cons,
        exists_eq_or_imp]
      have : (preprocess_loop true d (tolower (d.headD (Char.ofNat 0))) a.vocabulary).1 =
          normalize d := preprocess_string_ingest_fst _ _
      rw [this]
      tauto

theorem trie_of_new : TrieOf [] [({} : State)] [[]] := by
  refine ⟨⟨rfl, rfl, by simp, by simp, ?_, ?_⟩, ?_, ?_, ?_⟩
  · intro s w h
    cases s with
    | zero => simp at h; simp [← h]
    | succ n => simp at h
  · intro s st w c d hs hw
    cases s with
    | zero =>
      simp only [List.getElem?_cons_zero, Option.some.injEq] at hs hw
      subst hs hw
      simp only [State.go, go_edges, List.nil_append, List.not_mem_nil, false_and, and_false,
        or_false]
      constructor
      · intro h; cases h
      · intro h
        cases d with
        | zero => simp at h
        | succ n => simp at h
    | succ n => simp at hs
  · intro w
    simp [in_trie]
  · intro s st w hs hw
    cases s with
    | zero =>
      simp only [List.getElem?_cons_zero, Option.some.injEq] at hs hw
      subst hs hw
      rfl
    | succ n => simp at hs
  · intro s st hs
    cases s with
    | zero =>
      simp only [List.getElem?_cons_zero, Option.some.injEq] at hs
      subst hs
      rfl
    | succ n => simp at hs

/-! ## The loops at the root -/

theorem add_root_loops_go (cs entries : List Char) (st : State) (c : Char) :
    (add_root_loops cs entries st).go c =
      if st.go c = none ∧ c ∈ cs ∧ c ∉ entries then some 0 else st.go c := by
  induction cs generalizing st with
  | nil => simp [add_root_loops]
  | cons a cs ih =>
    unfold add_root_loops
    split
    · rename_i ha
      rw [ih, add_child_go]
      by_cases h1 : st.go c = none
      · by_cases h2 : c = a
        · subst h2
          simp [h1, ha]
        · by_cases h3 : c ∈ cs <;> simp [h1, h2, h3]
      · simp [h1]
    · rename_i ha
      rw [ih]
      by_cases h2 : c = a
      · subst h2
        simp [ha]
      · simp [h2]

theorem add_root_loops_outputs (cs entries : List Char) (st : State) :
    (add_root_loops cs entries st).outputs = st.outputs := by
  induction cs generalizing st with
  | nil => rfl
  | cons a cs ih =>
    unfold add_root_loops
    split
    · rw [ih, add_child_outputs]
    · exact ih _

theorem add_root_loops_fail (cs entries : List Char) (st : State) :
    (add_root_loops cs entries st).fail = st.fail := by
  induction cs generalizing st with
  | nil => rfl
  | cons a cs ih =>
    unfold add_root_loops
    split
    · rw [ih, add_child_fail]
    · exact ih _

theorem depth_eq {ws : List (List Char)} {s : Nat} {w : List Char} (h : ws[s]? = some w) :
    depth ws s = w.length := by
  unfold depth
  rw [List.getD_eq_getElem?_getD, h]
  rfl

theorem getElem?_set_eq_some {α : Type} (l : List α) (i j : Nat) (a b : α) :
    (l.set i a)[j]? = some b ↔ (i = j ∧ i < l.length ∧ a = b) ∨ (i ≠ j ∧ l[j]? = some b) := by
  rw [List.getElem?_set]
  by_cases h : i = j
  · by_cases h2 : i < l.length <;> simp [h, h2]
  · simp [h]

/-- The state of the trie before the loop over the vocabulary that fills the queue. -/
theorem bfs_start {pats : List (List Char)} {vocab : List Char} {sts : List State}
    {ws : List (List Char)} {root : State} (T : TrieOf pats sts ws) (hv : vocab.Nodup)
    (hc : ∀ p ∈ pats, ∀ c ∈ p, c ∈ vocab) (hroot : sts[0]? = some root) :
    Bfs pats vocab (sts.set 0 (add_root_loops vocab root.get_entries root)) ws [] 0 vocab := by
  have h0 : 0 < sts.length := (List.getElem?_eq_some.mp hroot).1
  have hgo : ∀ c, (add_root_loops vocab root.get_entries root).go c =
      if root.go c = none ∧ c ∈ vocab then some 0 else root.go c := by
    intro c
    rw [add_root_loops_go]
    by_cases h1 : root.go c = none
    · have : c ∉ root.get_entries := by
        rw [mem_get_entries]
        simpa using h1
      simp [h1, this]
    · simp [h1]
  have hold := fun c d => T.trie.go_iff 0 root [] c d hroot T.trie.root
  simp only [List.nil_append, List.not_mem_nil, false_and, and_false, or_false] at hold
  have hchars : ∀ (w : List Char), w ∈ ws → ∀ c ∈ w, c ∈ vocab := by
    intro w hw c hcw
    rcases (T.mem_iff w).mp hw with h | ⟨p, hp, hpre⟩
    · subst h
      simp at hcw
    · exact hc p hp c (hpre.subset hcw)
  have hfail : ∀ (s : Nat) (st : State),
      (sts.set 0 (add_root_loops vocab root.get_entries root))[s]? = some st →
      st.fail = none := by
    intro s st hs
    rcases (getElem?_set_eq_some _ _ _ _ _).mp hs with ⟨_, _, h⟩ | ⟨_, h⟩
    · rw [← h, add_root_loops_fail]
      exact T.nofail 0 root hroot
    · exact T.nofail s st h
  refine ⟨⟨by simp [T.trie.len], T.trie.root, T.trie.nodup, T.trie.closed, T.trie.depth_le,
    ?_⟩, T.mem_iff, hchars, ?_, List.nodup_nil, by simp, by simp, Or.inl rfl, hv, ?_, ?_,
    by simp, List.Pairwise.nil⟩
  · intro s st w c d hs hw
    rcases (getElem?_set_eq_some _ _ _ _ _).mp hs with ⟨h1, _, h⟩ | ⟨h1, h⟩
    · subst h1
      rw [T.trie.root] at hw
      cases hw
      rw [← h, hgo]
      simp only [List.nil_append, true_and]
      cases hr : root.go c with
      | none =>
        have hnot : ∀ (d1 : Nat), ws[d1]? ≠ some [c] := by
          intro d1 hd1
          have := (hold c d1).mpr hd1
          rw [hr] at this
          cases this
        have hnm : [c] ∉ ws := by
          intro hm
          obtain ⟨d1, hd1⟩ := List.mem_iff_getElem?.mp hm
          exact hnot d1 hd1
        by_cases hcv : c ∈ vocab
        · simp only [hcv, and_self, if_true, Option.some.injEq]
          constructor
          · intro h2
            exact Or.inr ⟨h2.symm, trivial, hnm⟩
          · rintro (h2 | ⟨h2, _⟩)
            · exact absurd h2 (hnot d)
            · exact h2.symm
        · simp only [hcv, and_false, if_false]
          constructor
          · intro h2; cases h2
          · rintro (h2 | ⟨_, h2, _⟩)
            · exact absurd h2 (hnot d)
            · exact absurd h2 (by simp)
      | some d0 =>
        have hd0 := (hold c d0).mp hr
        rw [if_neg (by simp)]
        simp only [Option.some.injEq]
        constructor
        · intro h2
          subst h2
          exact Or.inl hd0
        · rintro (h2 | ⟨_, _, h2⟩)
          · exact T.trie.inj hd0 h2
          · exact absurd (List.mem_iff_getElem?.mpr ⟨d0, hd0⟩) h2
    · have hwne : w ≠ [] := by
        intro h2
        subst h2
        exact h1 (T.trie.inj T.trie.root hw)
      have := T.trie.go_iff s st w c d h hw
      simp only [List.not_mem_nil, false_and, and_false, or_false] at this
      rw [this]
      simp [hwne]
  · intro s st w hs hw
    unfold state_ok
    rw [hfail s st hs]
    rcases (getElem?_set_eq_some _ _ _ _ _).mp hs with ⟨h1, _, h⟩ | ⟨_, h⟩
    · subst h1
      rw [← h, add_root_loops_outputs]
      exact T.outs 0 root w hroot hw
    · exact T.outs s st w h hw
  · intro c hcv
    refine ⟨_, List.getElem?_set_self h0, ?_⟩
    rw [hgo]
    by_cases h1 : root.go c = none
    · simp [h1, hcv]
    · simp [h1]
  · intro s st w c p hs hw hp
    have hf := hfail s st hs
    simp only [hf, ne_eq, not_true_eq_false, false_iff, not_and]
    intro hd _ hp0
    have hcw : c ∈ vocab :=
      hchars _ (List.mem_iff_getElem?.mpr ⟨s, hw⟩) c (by simp)
    rcases hd with hd | ⟨st1, h1, h2⟩
    · exact absurd hcw (hp0 hd)
    · exact absurd (hfail p st1 h1) h2

/-! ## The fail pointers -/

/-- The root has an edge on every symbol of the vocabulary. -/
theorem Trie.root_total {vocab : List Char} {sts : List State} {ws : List (List Char)}
    (T : Trie vocab sts ws) {st : State} (hs : sts[0]? = some st) {c : Char}
    (hc : c ∈ vocab) : ∃ d, st.go c = some d := by
  by_cases hm : [c] ∈ ws
  · obtain ⟨d, hd⟩ := List.mem_iff_getElem?.mp hm
    exact ⟨d, (T.go_iff 0 st [] c d hs T.root).mpr (Or.inl hd)⟩
  · exact ⟨0, (T.go_iff 0 st [] c 0 hs T.root).mpr (Or.inr ⟨rfl, rfl, hc, hm⟩)⟩

/-- The walk along the fail pointers from the state of the word `y` stops at a state with
an edge on `c`, and this edge leads to the state of the longest suffix of `y ++ [c]` that
is a word of the trie. All states down to the depth of `y` have their fail pointer. -/
theorem chase_spec {pats : List (List Char)} {vocab : List Char} {sts : List State}
    {ws : List (List Char)} (T : Trie vocab sts ws)
    (hmem : ∀ (w : List Char), w ∈ ws ↔ in_trie pats w)
    (hok : ∀ (s : Nat) (st : State) (w : List Char), sts[s]? = some st → ws[s]? = some w →
      state_ok pats ws w st)
    (D : Nat)
    (hdone : ∀ (s : Nat) (w : List Char), ws[s]? = some w → w.length ≤ D → is_done sts s)
    {c : Char} (hc : c ∈ vocab) :
    ∀ (fuel v : Nat) (y : List Char), ws[v]? = some y → y.length ≤ D → y.length < fuel →
    ∃ v1 st1 fu, chase fuel sts v c = .ok v1 ∧ sts[v1]? = some st1 ∧ st1.go c = some fu ∧
      ws[fu]? = some (longest_suffix pats (y ++ [c])) := by
  intro fuel
  induction fuel with
  | zero => intro v y _ _ h; omega
  | succ fuel ih =>
    intro v y hv hD hfuel
    obtain ⟨st, hst⟩ := T.state_of_word hv
    cases hgo : st.go c with
    | some d =>
      refine ⟨v, st, d, by simp [chase, hst, hgo], hst, hgo, ?_⟩
      rcases (T.go_iff v st y c d hst hv).mp hgo with h | ⟨h1, h2, _, h4⟩
      · rw [longest_suffix_of_in_trie ((hmem _).mp (List.mem_iff_getElem?.mpr ⟨d, h⟩))]
        exact h
      · subst h1 h2
        have : ¬ in_trie pats [c] := fun h => h4 ((hmem _).mpr h)
        simp only [List.nil_append, longest_suffix, this, if_false]
        exact T.root
    | none =>
      have hynm : y ++ [c] ∉ ws := by
        intro hm
        obtain ⟨d, hd⟩ := List.mem_iff_getElem?.mp hm
        have := (T.go_iff v st y c d hst hv).mpr (Or.inl hd)
        rw [hgo] at this
        cases this
      cases y with
      | nil =>
        have hv0 : v = 0 := T.inj hv T.root
        subst hv0
        obtain ⟨d, hd⟩ := T.root_total hst hc
        rw [hgo] at hd
        cases hd
      | cons a t =>
        have hv0 : v ≠ 0 := by
          intro h
          subst h
          rw [T.root] at hv
          cases hv
        have hfail : st.fail ≠ none := by
          rcases hdone v _ hv hD with h | ⟨st1, h1, h2⟩
          · exact absurd h hv0
          · rw [hst] at h1
            cases h1
            exact h2
        have hst_ok := hok v st _ hst hv
        unfold state_ok at hst_ok
        cases hf : st.fail with
        | none => exact absurd hf hfail
        | some f =>
          rw [hf] at hst_ok
          obtain ⟨_, hfw, _⟩ := hst_ok
          simp only [List.tail_cons] at hfw
          have hlen := longest_suffix_length_le pats t
          simp only [List.length_cons] at hD hfuel
          obtain ⟨v1, st1, fu, e1, e2, e3, e4⟩ :=
            ih f (longest_suffix pats t) hfw (by omega) (by omega)
          refine ⟨v1, st1, fu, by simp [chase, hst, hgo, hf, e1], e2, e3, ?_⟩
          rw [e4, ← longest_suffix_snoc]
          exact congrArg some
            (longest_suffix_cons_snoc (fun h => hynm ((hmem _).mpr h))).symm

/-- While the fail pointers are computed, every state that is not deeper than the state
`r` in hand is done. -/
theorem Bfs.done_of_depth_le {pats : List (List Char)} {vocab : List Char}
    {sts : List State} {ws : List (List Char)} {queue : List Nat} {r : Nat} {cs : List Char}
    (B : Bfs pats vocab sts ws queue r cs) :
    ∀ (w : List Char) (s : Nat), ws[s]? = some w → w.length ≤ depth ws r → is_done sts s := by
  intro w
  induction w using List.reverseRecOn with
  | nil =>
    intro s hs _
    exact Or.inl (B.trie.inj hs B.trie.root)
  | append_singleton w c ih =>
    intro s hs hle
    have hwm : w ∈ ws := B.trie.closed w c (List.mem_iff_getElem?.mpr ⟨s, hs⟩)
    obtain ⟨p, hp⟩ := List.mem_iff_getElem?.mp hwm
    obtain ⟨st, hst⟩ := B.trie.state_of_word hs
    simp only [List.length_append, List.length_singleton] at hle
    have hpd := ih p hp (by omega)
    have hdp : depth ws p = w.length := depth_eq hp
    right
    refine ⟨st, hst, (B.done_iff s st w c p hst hs hp).mpr ⟨hpd, ?_, ?_⟩⟩
    · intro hq
      have := (B.depth_queue p hq).1
      omega
    · intro hpr
      rw [hpr] at hdp
      omega

/-- One edge of `r` visited: the child `u` gets its fail pointer and enters the queue. -/
theorem Bfs.mark {pats : List (List Char)} {vocab : List Char} {sts : List State}
    {ws : List (List Char)} {queue : List Nat} {r : Nat} {c : Char} {cs : List Char}
    (B : Bfs pats vocab sts ws queue r (c :: cs)) {wr : List Char} {u : Nat} {st st1 : State}
    (hr : ws[r]? = some wr) (hu : ws[u]? = some (wr ++ [c])) (hst : sts[u]? = some st)
    (hok : state_ok pats ws (wr ++ [c]) st1)
    (hgo : ∀ c, st1.go c = st.go c) (hf : st1.fail ≠ none) :
    Bfs pats vocab (sts.set u st1) ws (queue ++ [u]) r cs := by
  have hult : u < sts.length := (List.getElem?_eq_some.mp hst).1
  have hunone : st.fail = none := by
    by_contra h
    have := ((B.done_iff u st wr c r hst hu hr).mp h).2.2 rfl
    simp at this
  have hur : u ≠ r := by
    intro h
    subst h
    rw [hr] at hu
    have := congrArg List.length (Option.some.inj hu)
    simp at this
  have hu0 : u ≠ 0 := by
    intro h
    subst h
    rw [B.trie.root] at hu
    have := congrArg List.length (Option.some.inj hu)
    simp at this
  have huq : u ∉ queue := by
    intro h
    obtain ⟨_, st2, h1, h2⟩ := B.queue_done u h
    rw [hst] at h1
    cases h1
    exact h2 hunone
  have hdu : depth ws u = depth ws r + 1 := by
    rw [depth_eq hu, depth_eq hr]
    simp
  have hget : ∀ (s : Nat) (st2 : State), s ≠ u → sts[s]? = some st2 →
      (sts.set u st1)[s]? = some st2 := by
    intro s st2 hs h
    rw [List.getElem?_set_ne (fun h => hs h.symm)]
    exact h
  have hdone : ∀ (p : Nat), is_done (sts.set u st1) p ↔ is_done sts p ∨ p = u := by
    intro p
    unfold is_done
    by_cases hpu : p = u
    · subst hpu
      simp only [or_true, iff_true]
      exact Or.inr ⟨st1, List.getElem?_set_self hult, hf⟩
    · rw [List.getElem?_set_ne (fun h => hpu h.symm)]
      simp [hpu]
  refine ⟨trie_set_same_go B.trie hst hgo, B.mem_iff, B.chars, ?_, ?_, ?_, ?_, ?_,
    (List.nodup_cons.mp B.cs_nodup).2, ?_, ?_, ?_, ?_⟩
  · intro s st2 w hs hw
    rcases (getElem?_set_eq_some _ _ _ _ _).mp hs with ⟨h1, _, h⟩ | ⟨_, h⟩
    · subst h1 h
      rw [hu] at hw
      cases hw
      exact hok
    · exact B.ok s st2 w h hw
  · rw [List.nodup_append]
    refine ⟨B.queue_nodup, List.nodup_singleton _, ?_⟩
    intro x hx hx2
    rw [List.mem_singleton] at hx2
    exact huq (hx2 ▸ hx)
  · intro h
    rcases List.mem_append.mp h with h | h
    · exact B.r_not_queue h
    · rw [List.mem_singleton] at h
      exact hur h.symm
  · intro q hq
    rcases List.mem_append.mp hq with hq | hq
    · obtain ⟨h1, st2, h2, h3⟩ := B.queue_done q hq
      exact ⟨h1, st2, hget q st2 (fun h => huq (h ▸ hq)) h2, h3⟩
    · rw [List.mem_singleton] at hq
      subst hq
      exact ⟨hu0, st1, List.getElem?_set_self hult, hf⟩
  · exact (hdone r).mpr (Or.inl B.r_done)
  · intro c1 hc1
    obtain ⟨st2, h1, h2⟩ := B.cs_entries c1 (List.mem_cons_of_mem _ hc1)
    exact ⟨st2, hget r st2 (fun h => hur h.symm) h1, h2⟩
  · intro s st2 w c1 p hs hw hp
    rw [hdone]
    rcases (getElem?_set_eq_some _ _ _ _ _).mp hs with ⟨h1, _, h⟩ | ⟨h1, h⟩
    · subst h1 h
      rw [hu] at hw
      have hwe := Option.some.inj hw
      have hw1 : wr = w := List.append_inj_left' hwe rfl
      have hc1 : c = c1 := by
        have := List.append_inj_right' hwe rfl
        simpa using this
      subst hw1 hc1
      have hpr : p = r := B.trie.inj hp hr
      subst hpr
      constructor
      · intro _
        refine ⟨Or.inl B.r_done, ?_, fun _ => (List.nodup_cons.mp B.cs_nodup).1⟩
        intro h
        rcases List.mem_append.mp h with h | h
        · exact B.r_not_queue h
        · exact hur (List.mem_singleton.mp h).symm
      · intro _
        exact hf
    · have hold := B.done_iff s st2 w c1 p h hw hp
      rw [hold]
      by_cases hpu : p = u
      · subst hpu
        have : ¬ is_done sts p := by
          rintro (h2 | ⟨st3, h2, h3⟩)
          · exact hu0 h2
          · rw [hst] at h2
            cases h2
            exact h3 hunone
        constructor
        · rintro ⟨h2, _⟩
          exact absurd h2 this
        · rintro ⟨_, h3, _⟩
          exact absurd (List.mem_append_right _ (List.mem_singleton.mpr rfl)) h3
      · constructor
        · rintro ⟨h2, h3, h4⟩
          refine ⟨Or.inl h2, ?_, fun h5 h6 => h4 h5 (List.mem_cons_of_mem _ h6)⟩
          intro h
          rcases List.mem_append.mp h with h | h
          · exact h3 h
          · exact hpu (List.mem_singleton.mp h)
        · rintro ⟨h2, h3, h4⟩
          refine ⟨h2.resolve_right hpu, fun h => h3 (List.mem_append_left _ h),
            fun h5 h6 => ?_⟩
          rcases List.mem_cons.mp h6 with h6 | h6
          · subst h5 h6
            rw [hr] at hp
            cases hp
            exact h1 (B.trie.inj hu hw)
          · exact h4 h5 h6
  · intro q hq
    rcases List.mem_append.mp hq with hq | hq
    · exact B.depth_queue q hq
    · rw [List.mem_singleton] at hq
      subst hq
      omega
  · rw [List.pairwise_append]
    refine ⟨B.sorted, List.pairwise_singleton _ _, ?_⟩
    intro a ha b hb
    rw [List.mem_singleton] at hb
    subst hb
    have := (B.depth_queue a ha).2
    omega

/-- An entry of `r` that leads to no state of its own (a loop at the root). -/
theorem Bfs.skip {pats : List (List Char)} {vocab : List Char} {sts : List State}
    {ws : List (List Char)} {queue : List Nat} {r : Nat} {c : Char} {cs : List Char}
    (B : Bfs pats vocab sts ws queue r (c :: cs)) {wr : List Char}
    (hr : ws[r]? = some wr) (hno : wr ++ [c] ∉ ws) :
    Bfs pats vocab sts ws queue r cs := by
  refine ⟨B.trie, B.mem_iff, B.chars, B.ok, B.queue_nodup, B.r_not_queue, B.queue_done,
    B.r_done, (List.nodup_cons.mp B.cs_nodup).2,
    fun c1 hc1 => B.cs_entries c1 (List.mem_cons_of_mem _ hc1), ?_, B.depth_queue, B.sorted⟩
  intro s st2 w c1 p hs hw hp
  rw [B.done_iff s st2 w c1 p hs hw hp]
  constructor
  · rintro ⟨h2, h3, h4⟩
    exact ⟨h2, h3, fun h5 h6 => h4 h5 (List.mem_cons_of_mem _ h6)⟩
  · rintro ⟨h2, h3, h4⟩
    refine ⟨h2, h3, fun h5 h6 => ?_⟩
    rcases List.mem_cons.mp h6 with h6 | h6
    · subst h5 h6
      rw [hr] at hp
      cases hp
      exact hno (List.mem_iff_getElem?.mpr ⟨s, hw⟩)
    · exact h4 h5 h6

/-- The next state is taken from the queue; its entries are to visit. -/
theorem Bfs.pop {pats : List (List Char)} {vocab : List Char} {sts : List State}
    {ws : List (List Char)} {queue : List Nat} {r r1 : Nat}
    (B : Bfs pats vocab sts ws (r1 :: queue) r []) {st1 : State} (hst : sts[r1]? = some st1) :
    Bfs pats vocab sts ws queue r1 st1.get_entries := by
  obtain ⟨hr1q, hqn⟩ := List.nodup_cons.mp B.queue_nodup
  obtain ⟨hs1, hs2⟩ := List.pairwise_cons.mp B.sorted
  refine ⟨B.trie, B.mem_iff, B.chars, B.ok, hqn, hr1q,
    fun q hq => B.queue_done q (List.mem_cons_of_mem _ hq), ?_, nodup_get_entries _, ?_, ?_,
    ?_, hs2⟩
  · obtain ⟨_, h⟩ := B.queue_done r1 (List.mem_cons_self _ _)
    exact Or.inr h
  · intro c hc
    exact ⟨st1, hst, (mem_get_entries _ _).mp hc⟩
  · intro s st2 w c p hs hw hp
    rw [B.done_iff s st2 w c p hs hw hp]
    by_cases hpr : p = r1
    · subst hpr
      have hgo : st1.go c = some s := (B.trie.go_iff p st1 w c s hst hp).mpr (Or.inl hw)
      have hmem : c ∈ st1.get_entries := by
        rw [mem_get_entries, hgo]
        simp
      constructor
      · rintro ⟨_, h3, _⟩
        exact absurd (List.mem_cons_self _ _) h3
      · rintro ⟨_, _, h4⟩
        exact absurd hmem (h4 rfl)
    · constructor
      · rintro ⟨h2, h3, _⟩
        exact ⟨h2, fun h => h3 (List.mem_cons_of_mem _ h), fun h5 => absurd h5 hpr⟩
      · rintro ⟨h2, h3, _⟩
        refine ⟨h2, fun h => ?_, fun _ h6 => by simp at h6⟩
        rcases List.mem_cons.mp h with h | h
        · exact hpr h
        · exact h3 h
  · intro q hq
    have h1 := hs1 q hq
    have h2 := (B.depth_queue q (List.mem_cons_of_mem _ hq)).2
    have h3 := (B.depth_queue r1 (List.mem_cons_self _ _)).1
    omega

theorem Bfs.child_fail_none {pats : List (List Char)} {vocab : List Char} {sts : List State}
    {ws : List (List Char)} {queue : List Nat} {r : Nat} {c : Char} {cs : List Char}
    (B : Bfs pats vocab sts ws queue r (c :: cs)) {wr : List Char} {u : Nat} {st : State}
    (hr : ws[r]? = some wr) (hu : ws[u]? = some (wr ++ [c])) (hst : sts[u]? = some st) :
    st.fail = none := by
  by_contra h
  have := ((B.done_iff u st wr c r hst hu hr).mp h).2.2 rfl
  simp at this

theorem count_mark (sts : List State) (u : Nat) (st st1 : State) (hst : sts[u]? = some st)
    (h0 : st.fail = none) (h1 : st1.fail ≠ none) :
    (sts.set u st1).countP (fun s => s.fail.isNone) + 1 =
      sts.countP (fun s => s.fail.isNone) := by
  induction sts generalizing u with
  | nil => simp at hst
  | cons a l ih =>
    cases u with
    | zero =>
      simp only [List.getElem?_cons_zero, Option.some.injEq] at hst
      subst hst
      have e1 : st1.fail.isNone = false := by
        cases h : st1.fail with
        | none => exact absurd h h1
        | some _ => rfl
      simp [List.set, List.countP_cons, h0, e1]
    | succ n =>
      simp only [List.getElem?_cons_succ] at hst
      simp only [List.set, List.countP_cons]
      have := ih n hst
      omega

theorem state_ok_outputs {pats : List (List Char)} {ws : List (List Char)} {w : List Char}
    {st : State} (h : state_ok pats ws w st) (hd : w = [] ∨ st.fail ≠ none) :
    st.outputs = final_outputs pats w := by
  unfold state_ok at h
  cases hf : st.fail with
  | none =>
    rw [hf] at h
    rcases hd with hd | hd
    · subst hd
      exact h
    · exact absurd hf hd
  | some f =>
    rw [hf] at h
    exact h.2.2

theorem state_ok_root_fail {pats : List (List Char)} {ws : List (List Char)} {st : State}
    (h : state_ok pats ws [] st) : st.fail = none := by
  unfold state_ok at h
  cases hf : st.fail with
  | none => rfl
  | some f =>
    rw [hf] at h
    exact absurd rfl h.1

theorem final_outputs_step (pats : List (List Char)) (a : Char) (t : List Char) (c : Char) :
    final_outputs pats (a :: t ++ [c]) =
      own pats (a :: t ++ [c]) ++ final_outputs pats (longest_suffix pats (t ++ [c])) := by
  rw [final_outputs_longest_suffix]
  cases t with
  | nil => rfl
  | cons b t => rfl

/-- The loop over the vocabulary that fills the queue with the children of the root. -/
theorem init_queue_spec {pats : List (List Char)} {vocab : List Char}
    {ws : List (List Char)} (cs : List Char) :
    ∀ (sts : List State) (queue : List Nat), Bfs pats vocab sts ws queue 0 cs →
    ∃ sts1 queue1, init_queue cs sts queue = .ok (sts1, queue1) ∧
      Bfs pats vocab sts1 ws queue1 0 [] ∧
      queue1.length + sts1.countP (fun s => s.fail.isNone) =
        queue.length + sts.countP (fun s => s.fail.isNone) := by
  induction cs with
  | nil =>
    intro sts queue B
    exact ⟨sts, queue, rfl, B, rfl⟩
  | cons c cs ih =>
    intro sts queue B
    obtain ⟨root, hroot, hgo⟩ := B.cs_entries c (List.mem_cons_self _ _)
    cases hq : root.go c with
    | none => exact absurd hq hgo
    | some q =>
      rcases (B.trie.go_iff 0 root [] c q hroot B.trie.root).mp hq with h | ⟨_, h2, _, h4⟩
      · simp only [List.nil_append] at h
        obtain ⟨locked_q, hlq⟩ := B.trie.state_of_word h
        have hq0 : q ≠ 0 := by
          intro h0
          subst h0
          rw [B.trie.root] at h
          cases h
        have hnone := B.child_fail_none B.trie.root h hlq
        have hok : state_ok pats ws ([] ++ [c]) (locked_q.set_fail (some 0)) := by
          have hold := B.ok q locked_q [c] hlq h
          unfold state_ok at hold
          rw [hnone] at hold
          have hin : in_trie pats [c] := (B.mem_iff _).mp (List.mem_iff_getElem?.mpr ⟨q, h⟩)
          unfold state_ok
          simp only [State.set_fail, List.nil_append, List.tail_cons, longest_suffix]
          refine ⟨by simp, B.trie.root, ?_⟩
          simp [final_outputs, hin, hold]
        have B1 := B.mark B.trie.root h hlq hok (fun _ => rfl) (by simp [State.set_fail])
        obtain ⟨sts1, queue1, e1, e2, e3⟩ := ih _ _ B1
        refine ⟨sts1, queue1, ?_, e2, ?_⟩
        · simp only [init_queue, hroot, hq, hlq, hq0, ne_eq, not_false_eq_true, if_true]
          exact e1
        · rw [e3]
          have := count_mark sts q locked_q (locked_q.set_fail (some 0)) hlq hnone
            (by simp [State.set_fail])
          simp only [List.length_append, List.length_singleton]
          omega
      · subst h2
        have B1 := B.skip B.trie.root h4
        obtain ⟨sts1, queue1, e1, e2, e3⟩ := ih _ _ B1
        refine ⟨sts1, queue1, ?_, e2, e3⟩
        simp only [init_queue, hroot, hq, ne_eq, not_true_eq_false, if_false]
        exact e1

/-- The body of the loop over the entries of the state `r` taken from the queue: the
child on `c` gets the fail pointer and the outputs that are due, and enters the queue. -/
theorem bfs_child_spec {pats : List (List Char)} {vocab : List Char} {sts : List State}
    {ws : List (List Char)} {queue : List Nat} {r : Nat} {c : Char} {cs : List Char}
    (B : Bfs pats vocab sts ws queue r (c :: cs)) (hr0 : r ≠ 0) :
    ∃ sts1 u, bfs_child r c sts queue = .ok (sts1, queue ++ [u]) ∧
      Bfs pats vocab sts1 ws (queue ++ [u]) r cs ∧
      sts1.countP (fun s => s.fail.isNone) + 1 = sts.countP (fun s => s.fail.isNone) := by
  obtain ⟨st_r, hst_r, hgo⟩ := B.cs_entries c (List.mem_cons_self _ _)
  obtain ⟨wr, hwr⟩ := B.trie.word_of_state hst_r
  cases wr with
  | nil => exact absurd (B.trie.inj hwr B.trie.root) hr0
  | cons a t =>
  cases hu : st_r.go c with
  | none => exact absurd hu hgo
  | some u =>
  have huw : ws[u]? = some (a :: t ++ [c]) := by
    rcases (B.trie.go_iff r st_r _ c u hst_r hwr).mp hu with h | ⟨h, _⟩
    · exact h
    · cases h
  have hrf : st_r.fail ≠ none := by
    rcases B.r_done with h | ⟨st2, h1, h2⟩
    · exact absurd h hr0
    · rw [hst_r] at h1
      cases h1
      exact h2
  cases hv0 : st_r.fail with
  | none => exact absurd hv0 hrf
  | some v0 =>
  have hrok := B.ok r st_r _ hst_r hwr
  unfold state_ok at hrok
  rw [hv0] at hrok
  obtain ⟨_, hv0w, _⟩ := hrok
  simp only [List.tail_cons] at hv0w
  have hcv : c ∈ vocab :=
    B.chars _ (List.mem_iff_getElem?.mpr ⟨u, huw⟩) c (by simp)
  have hdr : depth ws r = t.length + 1 := by
    rw [depth_eq hwr]
    rfl
  have hlen := longest_suffix_length_le pats t
  obtain ⟨v1, st_v, fu, e1, e2, e3, e4⟩ :=
    chase_spec B.trie B.mem_iff B.ok (depth ws r) (fun s w h1 h2 => B.done_of_depth_le w s h1 h2)
      hcv sts.length v0 _ hv0w (by omega) (B.trie.length_lt hv0w)
  rw [← longest_suffix_snoc] at e4
  obtain ⟨st_u, hst_u⟩ := B.trie.state_of_word huw
  obtain ⟨st_fu, hst_fu⟩ := B.trie.state_of_word e4
  have hlen2 := longest_suffix_length_le pats (t ++ [c])
  simp only [List.length_append, List.length_singleton] at hlen2
  have hfu_u : fu ≠ u := by
    intro h
    subst h
    rw [huw] at e4
    have := congrArg List.length (Option.some.inj e4)
    simp only [List.length_append, List.length_cons, List.length_singleton] at this
    omega
  have hunone := B.child_fail_none hwr huw hst_u
  have huout : st_u.outputs = own pats (a :: t ++ [c]) := by
    have := B.ok u st_u _ hst_u huw
    unfold state_ok at this
    rw [hunone] at this
    exact this
  have hfuout : st_fu.outputs = final_outputs pats (longest_suffix pats (t ++ [c])) := by
    apply state_ok_outputs (B.ok fu st_fu _ hst_fu e4)
    rcases B.done_of_depth_le _ fu e4 (by omega) with h | ⟨st2, h1, h2⟩
    · subst h
      rw [B.trie.root] at e4
      left
      exact (Option.some.inj e4).symm
    · rw [hst_fu] at h1
      cases h1
      exact Or.inr h2
  have hok : state_ok pats ws (a :: t ++ [c])
      { st_u with fail := some fu, outputs := st_u.outputs ++ st_fu.outputs } := by
    unfold state_ok
    refine ⟨by simp, ?_, ?_⟩
    · simpa using e4
    · simp only [huout, hfuout]
      exact (final_outputs_step pats a t c).symm
  have B1 := B.mark hwr huw hst_u hok (fun _ => rfl) (by simp)
  refine ⟨_, u, ?_, B1, count_mark sts u st_u _ hst_u hunone (by simp)⟩
  have hlk : (sts.set u (st_u.set_fail (some fu)))[fu]? = some st_fu := by
    rw [List.getElem?_set_ne (fun h => hfu_u h.symm)]
    exact hst_fu
  simp only [bfs_child, hst_r, hu, hv0, e1, e2, e3, hst_u, hlk]

/-- The loop over the entries of the state `r` taken from the queue. -/
theorem bfs_children_spec {pats : List (List Char)} {vocab : List Char}
    {ws : List (List Char)} {r : Nat} (hr0 : r ≠ 0) (cs : List Char) :
    ∀ (sts : List State) (queue : List Nat), Bfs pats vocab sts ws queue r cs →
    ∃ sts1 queue1, bfs_children cs r sts queue = .ok (sts1, queue1) ∧
      Bfs pats vocab sts1 ws queue1 r [] ∧
      queue1.length + sts1.countP (fun s => s.fail.isNone) =
        queue.length + sts.countP (fun s => s.fail.isNone) := by
  induction cs with
  | nil =>
    intro sts queue B
    exact ⟨sts, queue, rfl, B, rfl⟩
  | cons c cs ih =>
    intro sts queue B
    obtain ⟨sts1, u, e1, B1, e2⟩ := bfs_child_spec B hr0
    obtain ⟨sts2, queue2, e3, B2, e4⟩ := ih _ _ B1
    refine ⟨sts2, queue2, ?_, B2, ?_⟩
    · simp only [bfs_children, e1]
      exact e3
    · rw [e4]
      simp only [List.length_append, List.length_singleton]
      omega

/-- The loop over the queue runs to its end within the fuel. -/
theorem bfs_spec {pats : List (List Char)} {vocab : List Char} {ws : List (List Char)}
    (fuel : Nat) :
    ∀ (sts : List State) (queue : List Nat) (r : Nat), Bfs pats vocab sts ws queue r [] →
    queue.length + sts.countP (fun s => s.fail.isNone) ≤ fuel + 1 →
    ∃ sts1 r1, bfs fuel sts queue = .ok sts1 ∧ Bfs pats vocab sts1 ws [] r1 [] := by
  induction fuel with
  | zero =>
    intro sts queue r B hm
    cases queue with
    | nil => exact ⟨sts, r, rfl, B⟩
    | cons r1 queue =>
      obtain ⟨root, hroot⟩ := B.trie.state_of_word B.trie.root
      have hrf := state_ok_root_fail (B.ok 0 root [] hroot B.trie.root)
      have : 0 < sts.countP (fun s => s.fail.isNone) := by
        rw [List.countP_pos_iff]
        exact ⟨root, List.mem_iff_getElem?.mpr ⟨0, hroot⟩, by simp [hrf]⟩
      simp only [List.length_cons] at hm
      omega
  | succ fuel ih =>
    intro sts queue r B hm
    cases queue with
    | nil => exact ⟨sts, r, by simp [bfs], B⟩
    | cons r1 queue =>
      obtain ⟨hr10, locked_r, hlr, _⟩ := B.queue_done r1 (List.mem_cons_self _ _)
      have B1 := B.pop hlr
      obtain ⟨sts1, queue1, e1, B2, e2⟩ := bfs_children_spec hr10 _ _ _ B1
      simp only [List.length_cons] at hm
      obtain ⟨sts2, r2, e3, B3⟩ := ih sts1 queue1 r1 B2 (by omega)
      refine ⟨sts2, r2, ?_, B3⟩
      simp only [bfs, hlr, e1]
      exact e3

/-- When the queue is empty every state but the root has its fail pointer. -/
theorem Bfs.built {pats : List (List Char)} {vocab : List Char} {sts : List State}
    {ws : List (List Char)} {r : Nat} (B : Bfs pats vocab sts ws [] r []) :
    Built pats vocab sts ws := by
  have hall : ∀ (w : List Char) (s : Nat), ws[s]? = some w → is_done sts s := by
    intro w
    induction w using List.reverseRecOn with
    | nil =>
      intro s hs
      exact Or.inl (B.trie.inj hs B.trie.root)
    | append_singleton w c ih =>
      intro s hs
      have hwm : w ∈ ws := B.trie.closed w c (List.mem_iff_getElem?.mpr ⟨s, hs⟩)
      obtain ⟨p, hp⟩ := List.mem_iff_getElem?.mp hwm
      obtain ⟨st, hst⟩ := B.trie.state_of_word hs
      exact Or.inr ⟨st, hst, (B.done_iff s st w c p hst hs hp).mpr
        ⟨ih p hp, by simp, by simp⟩⟩
  refine ⟨B.trie, B.mem_iff, B.chars, B.ok, ?_⟩
  intro s st hs hs0
  obtain ⟨w, hw⟩ := B.trie.word_of_state hs
  rcases hall w s hw with h | ⟨st2, h1, h2⟩
  · exact absurd h hs0
  · rw [hs] at h1
    cases h1
    exact h2

/-! ## The automaton after `initialize` -/

theorem mem_mk_new_vocabulary (seed : List Char) (c : Char) :
    c ∈ (AhoCorasick.mk_new seed).vocabulary ↔ ∃ s ∈ seed, tolower s = c := by
  have key : ∀ (l acc : List Char),
      c ∈ l.foldl (fun v c => set_insert (tolower c) v) acc ↔
        c ∈ acc ∨ ∃ s ∈ l, tolower s = c := by
    intro l
    induction l with
    | nil => simp
    | cons a l ih =>
      intro acc
      simp only [List.foldl_cons, ih, mem_set_insert, List.mem_cons, exists_eq_or_imp]
      constructor
      · rintro ((h | h) | h)
        · exact Or.inr (Or.inl h.symm)
        · exact Or.inl h
        · exact Or.inr (Or.inr h)
      · rintro (h | h | h)
        · exact Or.inl (Or.inr h)
        · exact Or.inl (Or.inl h.symm)
        · exact Or.inr h
  simpa [AhoCorasick.mk_new] using key seed []

theorem nodup_mk_new_vocabulary (seed : List Char) :
    (AhoCorasick.mk_new seed).vocabulary.Nodup := by
  have key : ∀ (l acc : List Char), acc.Nodup →
      (l.foldl (fun v c => set_insert (tolower c) v) acc).Nodup := by
    intro l
    induction l with
    | nil => intro acc h; exact h
    | cons a l ih => intro acc h; exact ih _ (nodup_set_insert h)
  exact key seed [] List.nodup_nil

/-- On a freshly constructed automaton `initialize` returns 0 and leaves the automaton of
the normalized patterns; the vocabulary is the seed, case-folded, and the symbols of the
normalized patterns. -/
theorem initialize_spec (seed : List Char) (dict : List (List Char)) :
    ∃ a ws, (AhoCorasick.mk_new seed).initialize_ dict = .ok (0, a) ∧
      Built (dict.map normalize) a.vocabulary a.states ws ∧ a.vocabulary.Nodup ∧
      (∀ (c : Char), c ∈ a.vocabulary ↔
        (∃ s ∈ seed, tolower s = c) ∨ ∃ p ∈ dict.map normalize, c ∈ p) := by
  obtain ⟨a1, ws, e1, T, hv, hmem⟩ := insert_patterns_spec dict [] (AhoCorasick.mk_new seed)
    [[]] trie_of_new (nodup_mk_new_vocabulary seed)
  simp only [List.nil_append, List.length_nil] at e1 T
  obtain ⟨root, hroot⟩ := T.trie.state_of_word T.trie.root
  have hc : ∀ p ∈ dict.map normalize, ∀ c ∈ p, c ∈ a1.vocabulary :=
    fun p hp c hcp => (hmem c).mpr (Or.inr ⟨p, hp, hcp⟩)
  have B0 := bfs_start T hv hc hroot
  obtain ⟨sts3, queue, e2, B1, e3⟩ := init_queue_spec _ _ _ B0
  have hlen : sts3.length = (a1.states.set 0
      (add_root_loops a1.vocabulary root.get_entries root)).length := by
    rw [← B1.trie.len, ← B0.trie.len]
  have hcount := List.countP_le_length (fun (s : State) => s.fail.isNone)
    (l := a1.states.set 0 (add_root_loops a1.vocabulary root.get_entries root))
  simp only [List.length_nil, Nat.zero_add] at e3
  obtain ⟨sts4, r, e4, B2⟩ := bfs_spec sts3.length sts3 queue 0 B1 (by omega)
  refine ⟨{ states := sts4, vocabulary := a1.vocabulary }, ws, ?_, B2.built, hv, ?_⟩
  · have h1 : (AhoCorasick.mk_new seed).states.length = 1 := rfl
    simp only [AhoCorasick.initialize_, h1, ne_eq, not_true_eq_false, if_false, e1, hroot, e2,
      e4]
  · intro c
    rw [hmem, mem_mk_new_vocabulary]

theorem Built.is_done {pats : List (List Char)} {vocab : List Char} {sts : List State}
    {ws : List (List Char)} (A : Built pats vocab sts ws) (s : Nat) (w : List Char)
    (h : ws[s]? = some w) : is_done sts s := by
  by_cases h0 : s = 0
  · exact Or.inl h0
  · obtain ⟨st, hst⟩ := A.trie.state_of_word h
    exact Or.inr ⟨st, hst, A.done s st hst h0⟩

theorem Built.outputs {pats : List (List Char)} {vocab : List Char} {sts : List State}
    {ws : List (List Char)} (A : Built pats vocab sts ws) {s : Nat} {st : State}
    {w : List Char} (hs : sts[s]? = some st) (hw : ws[s]? = some w) :
    st.outputs = final_outputs pats w := by
  apply state_ok_outputs (A.ok s st w hs hw)
  by_cases h0 : s = 0
  · subst h0
    rw [A.trie.root] at hw
    exact Or.inl (Option.some.inj hw).symm
  · exact Or.inr (A.done s st hs h0)

/-- The scan from the state of the longest suffix of the symbols `pre` read so far that
is a word of the trie: after each symbol the outputs due for the symbols read are
appended. -/
theorem parse_loop_spec {pats : List (List Char)} {vocab : List Char} {sts : List State}
    {ws : List (List Char)} (A : Built pats vocab sts ws) (cs : List Char) :
    ∀ (q : Nat) (pre : List Char), (∀ c ∈ cs, c ∈ vocab) →
    ws[q]? = some (longest_suffix pats pre) →
    parse_loop cs q sts =
      .ok ((List.range cs.length).flatMap fun k => final_outputs pats (pre ++ cs.take (k + 1))) := by
  induction cs with
  | nil => intro q pre _ _; rfl
  | cons c cs ih =>
    intro q pre hcs hq
    have hc : c ∈ vocab := hcs c (List.mem_cons_self _ _)
    obtain ⟨v1, st1, fu, e1, e2, e3, e4⟩ :=
      chase_spec A.trie A.mem_iff A.ok sts.length (fun s w h _ => A.is_done s w h) hc
        sts.length q _ hq (Nat.le_of_lt (A.trie.length_lt hq)) (A.trie.length_lt hq)
    rw [← longest_suffix_snoc] at e4
    obtain ⟨st_fu, hfu⟩ := A.trie.state_of_word e4
    have hout := A.outputs hfu e4
    rw [final_outputs_longest_suffix] at hout
    have hrec := ih fu (pre ++ [c]) (fun x hx => hcs x (List.mem_cons_of_mem _ hx)) e4
    simp only [parse_loop, e1, e2, e3, hfu, hrec, hout]
    simp only [List.length_cons, List.range_succ_eq_map, List.flatMap_cons, List.flatMap_map,
      List.take_succ_cons, List.take_zero, List.append_assoc, List.singleton_append]

/-- After `initialize` on a fresh automaton, `parse` returns, position after position of
the preprocessed text, the outputs due for the symbols read so far, and leaves the
automaton as it is. -/
theorem parse_spec {pats : List (List Char)} {a : AhoCorasick} {ws : List (List Char)}
    (A : Built pats a.vocabulary a.states ws) (text : List Char) :
    a.parse text = .ok ((List.range (preprocess_string a.vocabulary text false).1.length).flatMap
      (fun k => final_outputs pats ((preprocess_string a.vocabulary text false).1.take (k + 1))),
      a) := by
  have hlen : a.states.length ≠ 0 := by
    have := A.trie.length_lt A.trie.root
    omega
  have hmem := preprocess_loop_query_mem text (tolower (text.headD (Char.ofNat 0))) a.vocabulary
  have hvoc := preprocess_loop_query_vocab text (tolower (text.headD (Char.ofNat 0)))
    a.vocabulary
  have h := parse_loop_spec A (preprocess_string a.vocabulary text false).1 0 [] hmem
    A.trie.root
  simp only [List.nil_append] at h
  simp only [AhoCorasick.parse, hlen, if_false, h]
  congr 2
  cases a
  simp only [AhoCorasick.mk.injEq, true_and]
  exact hvoc

theorem final_outputs_no_patterns (w : List Char) : final_outputs [] w = [] := by
  induction w with
  | nil => rfl
  | cons a t ih =>
    cases t with
    | nil => simp [final_outputs, own]
    | cons b t => rw [final_outputs_cons_cons, ih]; simp [own]

theorem expected_result_eq {pats : List (List Char)} (hne : [] ∉ pats) (t : List Char) :
    expected_result pats t =
      (List.range t.length).flatMap fun k => final_outputs pats (t.take (k + 1)) := by
  unfold expected_result
  apply List.flatMap_congr
  intro k _
  rw [ids_ending_eq_tails, final_outputs_eq_tails hne]

/-- A call of `parse` that returns leaves the automaton as it is. -/
theorem parse_frame {a : AhoCorasick} {text : List Char} {p : List Nat × AhoCorasick}
    (h : a.parse text = .ok p) : p.2 = a := by
  unfold AhoCorasick.parse at h
  simp only at h
  split at h
  · cases h
  · split at h
    · cases h
    · have h2 := Except.ok.inj h
      rw [← h2]
      cases a
      simp only [AhoCorasick.mk.injEq, true_and]
      exact preprocess_loop_query_vocab _ _ _

/-! ## The empty dictionary -/

theorem go_edges_loops (v : List Char) (c : Char) :
    go_edges (v.map fun x => ({ entry := x, dest := 0 } : Edge)) c =
      if c ∈ v then some 0 else none := by
  induction v with
  | nil => rfl
  | cons a v ih =>
    simp only [List.map_cons, go_edges, List.mem_cons]
    by_cases h : a = c
    · simp [h]
    · have h2 : ¬ c = a := fun e => h e.symm
      simp [h, h2, ih]

theorem add_root_loops_fresh (cs : List Char) :
    ∀ (st : State), cs.Nodup → (∀ c ∈ cs, st.go c = none) →
    add_root_loops cs [] st =
      { st with edges := st.edges ++ cs.map fun x => ({ entry := x, dest := 0 } : Edge) } := by
  induction cs with
  | nil => intro st _ _; simp [add_root_loops]
  | cons a cs ih =>
    intro st hn hgo
    obtain ⟨ha, hn2⟩ := List.nodup_cons.mp hn
    have hga : st.go a = none := hgo a (List.mem_cons_self _ _)
    have e : (st.add_child a 0).2 =
        { st with edges := st.edges ++ [({ entry := a, dest := 0 } : Edge)] } := by
      simp [State.add_child, hga]
    have hgo2 : ∀ c ∈ cs, (st.add_child a 0).2.go c = none := by
      intro c hc
      rw [add_child_go]
      have hca : c ≠ a := fun h => ha (h ▸ hc)
      simp [hca, hgo c (List.mem_cons_of_mem _ hc)]
    simp only [add_root_loops, List.not_mem_nil, not_false_eq_true, if_true]
    rw [ih _ hn2 hgo2, e]
    simp

theorem init_queue_loops (cs : List Char) (root : State) (h : ∀ c ∈ cs, root.go c = some 0) :
    init_queue cs [root] [] = .ok ([root], []) := by
  induction cs with
  | nil => rfl
  | cons a cs ih =>
    have ha := h a (List.mem_cons_self _ _)
    simp only [init_queue, List.getElem?_cons_zero, ha, ne_eq, not_true_eq_false, if_false]
    exact ih (fun c hc => h c (List.mem_cons_of_mem _ hc))

/-! ## Lemmas for the claims on the normalizer -/

theorem preprocess_loop_query_sublist (cs : List Char) (last_char : Char) (v : List Char) :
    (preprocess_loop false cs last_char v).1.Sublist (cs.map tolower) := by
  induction cs generalizing last_char v with
  | nil => simp [preprocess_loop]
  | cons c cs ih =>
    unfold preprocess_loop
    simp only [and_true, List.map_cons]
    split
    · exact (ih _ _).cons _
    · split
      · exact (ih _ _).cons _
      · exact (ih _ _).cons₂ _

/-- In query mode the symbols other than the space that are put out are the case-folded
characters of the input that are members of the vocabulary and not the space. -/
theorem preprocess_loop_query_filter (cs : List Char) (last_char : Char) (v : List Char) :
    (preprocess_loop false cs last_char v).1.filter (fun c => decide (c ≠ ' ')) =
      (cs.map tolower).filter (fun c => decide (c ∈ v ∧ c ≠ ' ')) := by
  induction cs generalizing last_char v with
  | nil => simp [preprocess_loop]
  | cons c cs ih =>
    unfold preprocess_loop
    simp only [and_true, List.map_cons]
    split
    · rename_i h
      rw [ih, List.filter_cons_of_neg (by simp [h])]
    · rename_i hmem
      have hm : tolower c ∈ v := by simpa using hmem
      split
      · rename_i h
        have hsp : tolower c = ' ' := by rw [← h.2, h.1]
        rw [ih, List.filter_cons_of_neg (by simp [hsp])]
      · simp only [set_insert_of_mem hm]
        by_cases hsp : tolower c = ' '
        · rw [List.filter_cons_of_neg (by simp [hsp]), List.filter_cons_of_neg (by simp [hsp])]
          exact ih _ _
        · rw [List.filter_cons_of_pos (by simp [hsp]),
            List.filter_cons_of_pos (by simp [hsp, hm])]
          rw [ih]

/-- On an input whose case-folded characters are all members of the vocabulary the two
modes of the loop do the same. -/
theorem preprocess_loop_modes_agree (cs : List Char) (last_char : Char) (v : List Char)
    (h : ∀ c ∈ cs, tolower c ∈ v) :
    preprocess_loop true cs last_char v = preprocess_loop false cs last_char v := by
  induction cs generalizing last_char with
  | nil => rfl
  | cons c cs ih =>
    have hm : tolower c ∈ v := h c (List.mem_cons_self _ _)
    have ht : ∀ x ∈ cs, tolower x ∈ v := fun x hx => h x (List.mem_cons_of_mem _ hx)
    unfold preprocess_loop
    simp only [Bool.true_eq_false, and_false, if_false, hm, not_true_eq_false, and_true,
      set_insert_of_mem hm]
    split
    · exact ih _ ht
    · rw [ih _ ht]

/-- In query mode, against a vocabulary that holds every symbol the ingestion of the
input puts out, the loop puts out what the ingestion does. -/
theorem preprocess_loop_query_eq_ingest (cs : List Char) (last_char : Char) (v w : List Char)
    (h : ∀ x ∈ (preprocess_loop true cs last_char w).1, x ∈ v) :
    (preprocess_loop false cs last_char v).1 = (preprocess_loop true cs last_char w).1 := by
  induction cs generalizing last_char w with
  | nil => rfl
  | cons c cs ih =>
    unfold preprocess_loop at h ⊢
    simp only [Bool.true_eq_false, and_false, if_false, and_true] at h ⊢
    by_cases hsp : last_char = ' ' ∧ last_char = tolower c
    · simp only [if_pos hsp] at h ⊢
      by_cases hm : tolower c ∈ v
      · rw [if_neg (by simpa using hm)]
        exact ih _ _ h
      · rw [if_pos hm]
        exact ih _ _ h
    · simp only [if_neg hsp] at h ⊢
      have hm : tolower c ∈ v := h _ (List.mem_cons_self _ _)
      rw [if_neg (by simpa using hm), set_insert_of_mem hm]
      simp only [List.cons.injEq, true_and]
      exact ih _ _ (fun x hx => h x (List.mem_cons_of_mem _ hx))

/-! ## Lemmas for the claims on the results of `parse` -/

theorem lt_of_mem_own {pats : List (List Char)} {w : List Char} {i : Nat}
    (h : i ∈ own pats w) : i < pats.length :=
  (List.getElem?_eq_some.mp (mem_own.mp h)).1

theorem lt_of_mem_final_outputs {pats : List (List Char)} {i : Nat} (w : List Char)
    (h : i ∈ final_outputs pats w) : i < pats.length := by
  induction w with
  | nil => exact lt_of_mem_own h
  | cons a t ih =>
    cases t with
    | nil =>
      simp only [final_outputs, List.mem_append] at h
      rcases h with h | h
      · exact lt_of_mem_own h
      · split at h
        · simp at h
        · exact lt_of_mem_own h
    | cons b t =>
      rw [final_outputs_cons_cons, List.mem_append] at h
      rcases h with h | h
      · exact lt_of_mem_own h
      · exact ih h

theorem own_subset_final_outputs (pats : List (List Char)) (w : List Char) :
    ∀ i ∈ own pats w, i ∈ final_outputs pats w := by
  intro i hi
  cases w with
  | nil => exact hi
  | cons a t =>
    cases t with
    | nil => exact List.mem_append_left _ hi
    | cons b t => exact List.mem_append_left _ hi

/-- The preprocessed form of a raw pattern as a query against a vocabulary that holds the
symbols of its normalized form is this normalized form. -/
theorem query_eq_normalize (v d : List Char) (h : ∀ x ∈ normalize d, x ∈ v) :
    (preprocess_string v d false).1 = normalize d :=
  preprocess_loop_query_eq_ingest _ _ _ _ h

/-! ## The words the states spell -/

/-- The walk along the edges of the trie from the state of the word `x` reaches the state
of `x ++ w`. -/
theorem trie_walk_iff {loops : List Char} {sts : List State} {ws : List (List Char)}
    (T : Trie loops sts ws) (w : List Char) :
    ∀ (s : Nat) (x : List Char) (u : Nat), ws[s]? = some x →
    (trie_walk sts w s = some u ↔ ws[u]? = some (x ++ w)) := by
  induction w with
  | nil =>
    intro s x u hs
    simp only [trie_walk, List.append_nil, Option.some.injEq]
    constructor
    · intro h
      subst h
      exact hs
    · intro h
      exact T.inj hs h
  | cons c cs ih =>
    intro s x u hs
    obtain ⟨st, hst⟩ := T.state_of_word hs
    have hassoc : x ++ c :: cs = (x ++ [c]) ++ cs := by simp
    constructor
    · intro h
      simp only [trie_walk, hst] at h
      cases hgo : st.go c with
      | none => simp [hgo] at h
      | some d =>
        simp only [hgo] at h
        by_cases hd : d = 0
        · simp [hd] at h
        · rw [if_neg hd] at h
          rcases (T.go_iff s st x c d hst hs).mp hgo with h1 | ⟨_, h1, _⟩
          · rw [hassoc]
            exact (ih d (x ++ [c]) u h1).mp h
          · exact absurd h1 hd
    · intro h
      rw [hassoc] at h
      have hm : x ++ [c] ∈ ws :=
        T.closed_append _ cs (List.mem_iff_getElem?.mpr ⟨u, h⟩)
      obtain ⟨d, hd⟩ := List.mem_iff_getElem?.mp hm
      have hd0 : d ≠ 0 := by
        intro h0
        subst h0
        rw [T.root] at hd
        have := congrArg List.length (Option.some.inj hd)
        simp at this
      have hgo : st.go c = some d := (T.go_iff s st x c d hst hs).mpr (Or.inl hd)
      simp only [trie_walk, hst, hgo, if_neg hd0]
      exact (ih d (x ++ [c]) u hd).mpr h

/-- The state `u` spells the word `w` exactly when `w` is its word. -/
theorem spells_iff {loops : List Char} {sts : List State} {ws : List (List Char)}
    (T : Trie loops sts ws) (w : List Char) (u : Nat) :
    trie_walk sts w 0 = some u ↔ ws[u]? = some w := by
  have := trie_walk_iff T w 0 [] u T.root
  simpa using this

theorem longest_suffix_max (pats : List (List Char)) (t v : List Char) (hs : v <:+ t)
    (hv : in_trie pats v) : v.length ≤ (longest_suffix pats t).length := by
  induction t with
  | nil =>
    have := List.eq_nil_of_suffix_nil hs
    subst this
    simp
  | cons a t ih =>
    by_cases h : in_trie pats (a :: t)
    · rw [longest_suffix_of_in_trie h]
      exact hs.length_le
    · have e : longest_suffix pats (a :: t) = longest_suffix pats t := by
        simp [longest_suffix, h]
      rw [e]
      rcases List.suffix_cons_iff.mp hs with h1 | h1
      · subst h1
        exact absurd hv h
      · exact ih h1

theorem suffix_tail_of_proper {w v : List Char} (hs : v <:+ w) (hl : v.length < w.length) :
    v <:+ w.tail := by
  cases w with
  | nil => simp at hl
  | cons a t =>
    rcases List.suffix_cons_iff.mp hs with h1 | h1
    · subst h1
      simp at hl
    · simpa using h1

/-- In the automaton `initialize` leaves, the fail pointer of a state other than the root
leads to the state of the longest proper suffix of its word that is a word of the
trie. -/
theorem Built.fail_spec {pats : List (List Char)} {vocab : List Char} {sts : List State}
    {ws : List (List Char)} (A : Built pats vocab sts ws) {s : Nat} {st : State}
    {w : List Char} (hs : sts[s]? = some st) (hw : ws[s]? = some w) (h0 : s ≠ 0) :
    w ≠ [] ∧ ∃ f, st.fail = some f ∧ ws[f]? = some (longest_suffix pats w.tail) := by
  have hd := A.done s st hs h0
  have hok := A.ok s st w hs hw
  unfold state_ok at hok
  cases hf : st.fail with
  | none => exact absurd hf hd
  | some f =>
    rw [hf] at hok
    exact ⟨hok.1, f, rfl, hok.2.1⟩

theorem Built.root_fail {pats : List (List Char)} {vocab : List Char} {sts : List State}
    {ws : List (List Char)} (A : Built pats vocab sts ws) :
    ∃ root, sts[0]? = some root ∧ root.fail = none ∧ root.outputs = own pats [] := by
  obtain ⟨root, hroot⟩ := A.trie.state_of_word A.trie.root
  have hok := A.ok 0 root [] hroot A.trie.root
  have hf := state_ok_root_fail hok
  refine ⟨root, hroot, hf, ?_⟩
  unfold state_ok at hok
  rw [hf] at hok
  exact hok

theorem Built.spelled {pats : List (List Char)} {vocab : List Char} {sts : List State}
    {ws : List (List Char)} (A : Built pats vocab sts ws) (u : Nat) (hu : u < sts.length) :
    ∃ w, trie_walk sts w 0 = some u := by
  have h : u < ws.length := A.trie.len ▸ hu
  exact ⟨ws[u], (spells_iff A.trie _ u).mpr (List.getElem?_eq_getElem h)⟩

theorem longest_suffix_tail_lt (pats : List (List Char)) {w : List Char} (hw : w ≠ []) :
    (longest_suffix pats w.tail).length < w.length := by
  cases w with
  | nil => exact absurd rfl hw
  | cons a t =>
    have := longest_suffix_length_le pats t
    simp only [List.tail_cons, List.length_cons]
    omega

theorem chase_mono (n : Nat) :
    ∀ (m : Nat) (sts : List State) (v : Nat) (c : Char) (v1 : Nat),
    chase n sts v c = .ok v1 → n ≤ m → chase m sts v c = .ok v1 := by
  induction n with
  | zero =>
    intro m sts v c v1 h _
    simp [chase] at h
  | succ n ih =>
    intro m sts v c v1 h hle
    cases m with
    | zero => omega
    | succ m =>
      unfold chase at h ⊢
      cases hst : sts[v]? with
      | none => simp [hst] at h
      | some st =>
        simp only [hst] at h ⊢
        cases hgo : st.go c with
        | some d =>
          simp only [hgo] at h ⊢
          exact h
        | none =>
          simp only [hgo] at h ⊢
          cases hf : st.fail with
          | none => simp [hf] at h
          | some f =>
            simp only [hf] at h ⊢
            exact ih m sts f c v1 h (by omega)

/-- In the automaton `initialize` leaves, the walk along the fail pointers from the
state of the word `y` on a symbol of the vocabulary stops within `y.length` steps. -/
theorem Built.chase_within_depth {pats : List (List Char)} {vocab : List Char} {sts : List State}
    {ws : List (List Char)} (A : Built pats vocab sts ws) {q : Nat} {y : List Char}
    {c : Char} (hq : ws[q]? = some y) (hc : c ∈ vocab) :
    ∃ v1 st1 d, chase (y.length + 1) sts q c = .ok v1 ∧
      chase sts.length sts q c = .ok v1 ∧ sts[v1]? = some st1 ∧ st1.go c = some d := by
  obtain ⟨v1, st1, fu, e1, e2, e3, _⟩ :=
    chase_spec A.trie A.mem_iff A.ok sts.length (fun s w h _ => A.is_done s w h) hc
      (y.length + 1) q y hq (Nat.le_of_lt (A.trie.length_lt hq)) (Nat.lt_succ_self _)
  exact ⟨v1, st1, fu, e1, chase_mono _ _ _ _ _ _ e1 (A.trie.length_lt hq), e2, e3⟩

/-- In the automaton `initialize` leaves, the outputs of a state other than the root are
the ids of the patterns it spells followed by the outputs of its fail target, when the
state is not a child of the root or no pattern is empty. -/
theorem Built.outputs_inherited {pats : List (List Char)} {vocab : List Char}
    {sts : List State} {ws : List (List Char)} (A : Built pats vocab sts ws) {s : Nat}
    {st : State} {w : List Char} (hs : sts[s]? = some st) (hw : ws[s]? = some w)
    (h0 : s ≠ 0) (h : 2 ≤ w.length ∨ [] ∉ pats) :
    ∃ f stf, st.fail = some f ∧ sts[f]? = some stf ∧
      st.outputs = own pats w ++ stf.outputs := by
  obtain ⟨hne, f, hf, hfw⟩ := A.fail_spec hs hw h0
  obtain ⟨stf, hstf⟩ := A.trie.state_of_word hfw
  refine ⟨f, stf, hf, hstf, ?_⟩
  rw [A.outputs hs hw, A.outputs hstf hfw, final_outputs_longest_suffix]
  cases w with
  | nil => exact absurd rfl hne
  | cons a t =>
    cases t with
    | nil =>
      rcases h with h | h
      · simp at h
      · have hin : in_trie pats [a] := (A.mem_iff _).mp (List.mem_iff_getElem?.mpr ⟨s, hw⟩)
        simp [final_outputs, hin, own_eq_nil h]
    | cons b t => rfl

theorem in_trie_filter_nonempty (dict : List (List Char)) (w : List Char) :
    in_trie ((dict.filter fun d => decide (normalize d ≠ [])).map normalize) w ↔
      in_trie (dict.map normalize) w := by
  unfold in_trie
  constructor
  · rintro (h | ⟨p, hp, hpre⟩)
    · exact Or.inl h
    · obtain ⟨d, hd, rfl⟩ := List.mem_map.mp hp
      exact Or.inr ⟨_, List.mem_map.mpr ⟨d, (List.mem_filter.mp hd).1, rfl⟩, hpre⟩
  · rintro (h | ⟨p, hp, hpre⟩)
    · exact Or.inl h
    · obtain ⟨d, hd, rfl⟩ := List.mem_map.mp hp
      by_cases hn : normalize d = []
      · left
        rw [hn] at hpre
        exact List.eq_nil_of_prefix_nil hpre
      · exact Or.inr ⟨_, List.mem_map.mpr ⟨d, List.mem_filter.mpr ⟨hd, by simpa using hn⟩,
          rfl⟩, hpre⟩

/-! ## One edge per symbol -/

theorem nodup_add_child (st : State) (c : Char) (d : Nat)
    (h : (st.edges.map Edge.entry).Nodup) :
    ((st.add_child c d).2.edges.map Edge.entry).Nodup := by
  unfold State.add_child
  split
  · exact h
  · rename_i hgo
    have hn : go_edges st.edges c = none := by simpa [State.go] using hgo
    simp only [List.map_append, List.map_cons, List.map_nil]
    rw [List.nodup_append]
    refine ⟨h, List.nodup_singleton _, ?_⟩
    intro x hx hx2
    rw [List.mem_singleton] at hx2
    subst hx2
    obtain ⟨e, he, hex⟩ := List.mem_map.mp hx
    have := (go_edges_ne_none_iff st.edges e.entry).mpr ⟨e, he, rfl⟩
    rw [hex] at this
    exact this hn

theorem deterministic_set {sts : List State} (h : deterministic sts) (i : Nat) (st1 : State)
    (h1 : (st1.edges.map Edge.entry).Nodup) : deterministic (sts.set i st1) := by
  intro st hst
  rcases List.mem_or_eq_of_mem_set hst with h2 | h2
  · exact h st h2
  · rw [h2]
    exact h1

theorem deterministic_snoc {sts : List State} (h : deterministic sts) :
    deterministic (sts ++ [({} : State)]) := by
  intro st hst
  rcases List.mem_append.mp hst with h2 | h2
  · exact h st h2
  · rw [List.mem_singleton] at h2
    rw [h2]
    exact List.nodup_nil

theorem deterministic_get {sts : List State} (h : deterministic sts) {i : Nat} {st : State}
    (hi : sts[i]? = some st) : (st.edges.map Edge.entry).Nodup :=
  h st (List.mem_iff_getElem?.mpr ⟨i, hi⟩)

theorem insert_symbols_det (cs : List Char) :
    ∀ (p : Nat) (sts : List State) (r : Nat × List State), deterministic sts →
    insert_symbols cs p sts = .ok r → deterministic r.2 := by
  induction cs with
  | nil =>
    intro p sts r h e
    simp only [insert_symbols, Except.ok.injEq] at e
    rw [← e]
    exact h
  | cons c cs ih =>
    intro p sts r h e
    unfold insert_symbols at e
    split at e
    · cases e
    · rename_i locked_p hp
      split at e
      · exact ih _ _ r (deterministic_snoc (deterministic_set h _ _
          (nodup_add_child _ _ _ (deterministic_get h hp)))) e
      · exact ih _ _ r h e

theorem insert_patterns_det (ds : List (List Char)) :
    ∀ (i : Nat) (a a1 : AhoCorasick), deterministic a.states →
    insert_patterns ds i a = .ok a1 → deterministic a1.states := by
  induction ds with
  | nil =>
    intro i a a1 h e
    simp only [insert_patterns, Except.ok.injEq] at e
    rw [← e]
    exact h
  | cons d ds ih =>
    intro i a a1 h e
    unfold insert_patterns at e
    split at e
    · cases e
    · simp only at e
      split at e
      · cases e
      · rename_i p states hs
        split at e
        · cases e
        · rename_i st hst
          have h1 := insert_symbols_det _ _ _ _ h hs
          have hn : (st.edges.map Edge.entry).Nodup := deterministic_get h1 hst
          exact ih _ _ a1 (deterministic_set h1 p (st.add_output i) hn) e

theorem add_root_loops_det (cs entries : List Char) :
    ∀ (root : State), (root.edges.map Edge.entry).Nodup →
    ((add_root_loops cs entries root).edges.map Edge.entry).Nodup := by
  induction cs with
  | nil => intro root h; exact h
  | cons c cs ih =>
    intro root h
    unfold add_root_loops
    split
    · exact ih _ (nodup_add_child _ _ _ h)
    · exact ih _ h

theorem init_queue_det (cs : List Char) :
    ∀ (sts : List State) (queue : List Nat) (r : List State × List Nat), deterministic sts →
    init_queue cs sts queue = .ok r → deterministic r.1 := by
  induction cs with
  | nil =>
    intro sts queue r h e
    simp only [init_queue, Except.ok.injEq] at e
    rw [← e]
    exact h
  | cons c cs ih =>
    intro sts queue r h e
    unfold init_queue at e
    split at e
    · cases e
    · split at e
      · cases e
      · split at e
        · cases e
        · rename_i locked_q hq
          split at e
          · have hn : (locked_q.edges.map Edge.entry).Nodup := deterministic_get h hq
            exact ih _ _ r (deterministic_set h _ (locked_q.set_fail (some 0)) hn) e
          · exact ih _ _ r h e

theorem bfs_child_det (r : Nat) (c : Char) (sts : List State) (queue : List Nat)
    (res : List State × List Nat) (h : deterministic sts)
    (e : bfs_child r c sts queue = .ok res) : deterministic res.1 := by
  unfold bfs_child at e
  split at e
  · cases e
  · split at e
    · cases e
    · split at e
      · cases e
      · split at e
        · cases e
        · split at e
          · cases e
          · split at e
            · cases e
            · split at e
              · cases e
              · rename_i locked_u hu
                split at e
                · cases e
                · rename_i locked_fu _
                  simp only [Except.ok.injEq] at e
                  rw [← e]
                  have hn : (locked_u.edges.map Edge.entry).Nodup := deterministic_get h hu
                  exact deterministic_set h _ _ hn

theorem bfs_children_det (cs : List Char) :
    ∀ (r : Nat) (sts : List State) (queue : List Nat) (res : List State × List Nat),
    deterministic sts → bfs_children cs r sts queue = .ok res → deterministic res.1 := by
  induction cs with
  | nil =>
    intro r sts queue res h e
    simp only [bfs_children, Except.ok.injEq] at e
    rw [← e]
    exact h
  | cons c cs ih =>
    intro r sts queue res h e
    unfold bfs_children at e
    split at e
    · cases e
    · rename_i states1 queue1 h1
      exact ih _ _ _ res (bfs_child_det _ _ _ _ _ h h1) e

theorem bfs_det (fuel : Nat) :
    ∀ (sts : List State) (queue : List Nat) (res : List State), deterministic sts →
    bfs fuel sts queue = .ok res → deterministic res := by
  induction fuel with
  | zero =>
    intro sts queue res h e
    cases queue with
    | nil =>
      simp only [bfs, Except.ok.injEq] at e
      rw [← e]
      exact h
    | cons r queue => simp [bfs] at e
  | succ fuel ih =>
    intro sts queue res h e
    cases queue with
    | nil =>
      simp only [bfs, Except.ok.injEq] at e
      rw [← e]
      exact h
    | cons r queue =>
      unfold bfs at e
      split at e
      · cases e
      · split at e
        · cases e
        · rename_i states1 queue1 h1
          exact ih _ _ res (bfs_children_det _ _ _ _ _ h h1) e

/-- A call of `initialize` that returns keeps the states at one edge per symbol. -/
theorem initialize_det (a : AhoCorasick) (dict : List (List Char)) (code : Int)
    (a1 : AhoCorasick) (h : deterministic a.states)
    (e : a.initialize_ dict = .ok (code, a1)) : deterministic a1.states := by
  unfold AhoCorasick.initialize_ at e
  split at e
  · simp only [Except.ok.injEq, Prod.mk.injEq] at e
    rw [← e.2]
    exact h
  · split at e
    · cases e
    · rename_i a2 h2
      have d2 := insert_patterns_det _ _ _ _ h h2
      split at e
      · cases e
      · rename_i root hroot
        simp only at e
        split at e
        · cases e
        · rename_i states3 queue h3
          have d3 := init_queue_det _ _ _ _
            (deterministic_set d2 0 _ (add_root_loops_det _ _ _ (deterministic_get d2 hroot))) h3
          split at e
          · cases e
          · rename_i states4 h4
            have d4 := bfs_det _ _ _ _ d3 h4
            simp only [Except.ok.injEq, Prod.mk.injEq] at e
            rw [← e.2]
            exact d4

/-- Every automaton a caller can hold has at most one edge per symbol at every state. -/
theorem reachable_det {a : AhoCorasick} (h : Reachable a) : deterministic a.states := by
  induction h with
  | construct vocab =>
    intro st hst
    simp only [AhoCorasick.mk_new, List.mem_singleton] at hst
    rw [hst]
    exact List.nodup_nil
  | init_call dict code a1 _ e ih => exact initialize_det _ dict code a1 ih e
  | parse_call text r a1 _ e ih =>
    have := parse_frame e
    simp only at this
    rw [this]
    exact ih

/-- The walk along the fail pointers in the body of the loop over the queue, for the
entry `c` of the state `r` taken from the queue: it starts at the fail target of `r`,
which spells a word `y`, and stops after at most `y.length` steps. -/
theorem Bfs.chase_in_loop {pats : List (List Char)} {vocab : List Char} {sts : List State}
    {ws : List (List Char)} {queue : List Nat} {r : Nat} {c : Char} {cs : List Char}
    (B : Bfs pats vocab sts ws queue r (c :: cs)) (hr0 : r ≠ 0) :
    ∃ st_r v0 y v1 st1 d, sts[r]? = some st_r ∧ st_r.fail = some v0 ∧ ws[v0]? = some y ∧
      chase (y.length + 1) sts v0 c = .ok v1 ∧ chase sts.length sts v0 c = .ok v1 ∧
      sts[v1]? = some st1 ∧ st1.go c = some d := by
  obtain ⟨st_r, hst_r, hgo⟩ := B.cs_entries c (List.mem_cons_self _ _)
  obtain ⟨wr, hwr⟩ := B.trie.word_of_state hst_r
  cases hu : st_r.go c with
  | none => exact absurd hu hgo
  | some u =>
  have hwne : wr ≠ [] := by
    intro h
    subst h
    exact hr0 (B.trie.inj hwr B.trie.root)
  have huw : ws[u]? = some (wr ++ [c]) := by
    rcases (B.trie.go_iff r st_r _ c u hst_r hwr).mp hu with h | ⟨h, _⟩
    · exact h
    · exact absurd h hwne
  have hrf : st_r.fail ≠ none := by
    rcases B.r_done with h | ⟨st2, h1, h2⟩
    · exact absurd h hr0
    · rw [hst_r] at h1
      cases h1
      exact h2
  cases hv0 : st_r.fail with
  | none => exact absurd hv0 hrf
  | some v0 =>
  have hrok := B.ok r st_r _ hst_r hwr
  unfold state_ok at hrok
  rw [hv0] at hrok
  obtain ⟨_, hv0w, _⟩ := hrok
  have hcv : c ∈ vocab :=
    B.chars _ (List.mem_iff_getElem?.mpr ⟨u, huw⟩) c (by simp)
  have hlt := longest_suffix_tail_lt pats hwne
  have hdr : depth ws r = wr.length := depth_eq hwr
  obtain ⟨v1, st1, d, e1, e2, e3, _⟩ :=
    chase_spec B.trie B.mem_iff B.ok (depth ws r) (fun s w h1 h2 => B.done_of_depth_le w s h1 h2)
      hcv ((longest_suffix pats wr.tail).length + 1) v0 _ hv0w (by omega) (Nat.lt_succ_self _)
  exact ⟨st_r, v0, _, v1, st1, d, hst_r, hv0, hv0w, e1,
    chase_mono _ _ _ _ _ _ e1 (B.trie.length_lt hv0w), e2, e3⟩

/-- What holds of the claim on the inheritance of outputs: after `initialize` on a
freshly constructed automaton, a state other than the root that spells `w` has the ids
of the patterns equal to `w` followed by the outputs of its fail target as outputs,
provided it is not a child of the root or no pattern normalizes to the empty
sequence. -/
theorem outputs_inherited_off_root (seed : List Char) (dict : List (List Char)) :
    ∃ a, (AhoCorasick.mk_new seed).initialize_ dict = .ok (0, a) ∧
      ∀ (u : Nat) (st : State) (w : List Char), u ≠ 0 → a.states[u]? = some st →
        trie_walk a.states w 0 = some u →
        (2 ≤ w.length ∨ ∀ d ∈ dict, normalize d ≠ []) →
        ∃ f stf, st.fail = some f ∧ a.states[f]? = some stf ∧
          st.outputs = own (dict.map normalize) w ++ stf.outputs := by
  obtain ⟨a, ws, e, A, _, _⟩ := initialize_spec seed dict
  refine ⟨a, e, ?_⟩
  intro u st w hu hst hw h
  apply A.outputs_inherited hst ((spells_iff A.trie w u).mp hw) hu
  rcases h with h | h
  · exact Or.inl h
  · right
    intro hm
    obtain ⟨d, hd, hd2⟩ := List.mem_map.mp hm
    exact h d hd hd2

/-! ## The front of the queue read through a reference -/

/-- Where the loop over the queue with the front read through the reference returns, it
returns what `bfs` returns. -/
theorem bfs_by_reference_ok (node : Nat) (fuel : Nat) :
    ∀ (popped : Nat) (sts : List State) (queue : List Nat) (res : List State),
    bfs_by_reference node fuel popped sts queue = .ok res → bfs fuel sts queue = .ok res := by
  induction fuel with
  | zero =>
    intro popped sts queue res e
    cases queue with
    | nil => simpa [bfs_by_reference, bfs] using e
    | cons r queue => simp [bfs_by_reference] at e
  | succ fuel ih =>
    intro popped sts queue res e
    cases queue with
    | nil => simpa [bfs_by_reference, bfs] using e
    | cons r queue =>
      by_cases hn : (popped + 1) % node = 0
      · simp [bfs_by_reference, hn] at e
      · cases hr : sts[r]? with
        | none => simp [bfs_by_reference, hn, hr] at e
        | some locked_r =>
          cases h1 : bfs_children locked_r.get_entries r sts queue with
          | error x => simp [bfs_by_reference, hn, hr, h1] at e
          | ok p =>
            simp only [bfs_by_reference, hn, if_false, hr, h1] at e
            simp only [bfs, hr, h1]
            exact ih _ _ _ _ e

/-- Where `initialize` with the front of the queue read through the reference returns, it
returns what `initialize_` returns. -/
theorem initialize_by_reference_ok (node : Nat) (a : AhoCorasick) (dict : List (List Char))
    (x : Int × AhoCorasick) (e : a.initialize_by_reference node dict = .ok x) :
    a.initialize_ dict = .ok x := by
  unfold AhoCorasick.initialize_by_reference at e
  unfold AhoCorasick.initialize_
  by_cases hl : a.states.length ≠ 1
  · rw [if_pos hl] at e ⊢
    exact e
  · rw [if_neg hl] at e ⊢
    cases h1 : insert_patterns dict 0 a with
    | error x => simp [h1] at e
    | ok a1 =>
      cases hroot : a1.states[0]? with
      | none => simp [h1, hroot] at e
      | some root =>
        cases h3 : init_queue a1.vocabulary
            (a1.states.set 0 (add_root_loops a1.vocabulary root.get_entries root)) [] with
        | error x => simp [h1, hroot, h3] at e
        | ok p =>
          cases h4 : bfs_by_reference node p.1.length 0 p.1 p.2 with
          | error x => simp [h1, hroot, h3, h4] at e
          | ok states4 =>
            simp only [h1, hroot, h3, h4] at e
            simp only [h1, hroot, h3, bfs_by_reference_ok _ _ _ _ _ _ h4]
            exact e

/-! ## The walks along the fail pointers during `initialize` -/

/-- Every call of the loop body for the state `r` taken from the queue walks along the
fail pointers from the fail target of `r`, which spells a word `y`, and the walk stops
after at most `y.length` steps. -/
theorem bfs_children_calls_spec {pats : List (List Char)} {vocab : List Char}
    {ws : List (List Char)} {r : Nat} (hr0 : r ≠ 0) (cs : List Char) :
    ∀ (sts : List State) (queue : List Nat), Bfs pats vocab sts ws queue r cs →
    ∀ call ∈ bfs_children_calls cs r sts queue,
      ∃ st_r v0 y v1 st1 d, call.states[call.r]? = some st_r ∧ st_r.fail = some v0 ∧
        trie_walk call.states y 0 = some v0 ∧
        chase (y.length + 1) call.states v0 call.c = .ok v1 ∧
        chase call.states.length call.states v0 call.c = .ok v1 ∧
        call.states[v1]? = some st1 ∧ st1.go call.c = some d := by
  induction cs with
  | nil =>
    intro sts queue _ call hc
    simp [bfs_children_calls] at hc
  | cons c cs ih =>
    intro sts queue B call hc
    obtain ⟨sts1, u, e1, B1, _⟩ := bfs_child_spec B hr0
    simp only [bfs_children_calls, e1, List.mem_cons] at hc
    rcases hc with hc | hc
    · subst hc
      obtain ⟨st_r, v0, y, v1, st1, d, h1, h2, h3, h4, h5, h6, h7⟩ := B.chase_in_loop hr0
      exact ⟨st_r, v0, y, v1, st1, d, h1, h2, (spells_iff B.trie y v0).mpr h3, h4, h5, h6, h7⟩
    · exact ih _ _ B1 call hc

theorem bfs_calls_spec {pats : List (List Char)} {vocab : List Char} {ws : List (List Char)}
    (fuel : Nat) :
    ∀ (sts : List State) (queue : List Nat) (r : Nat), Bfs pats vocab sts ws queue r [] →
    ∀ call ∈ bfs_calls fuel sts queue,
      ∃ st_r v0 y v1 st1 d, call.states[call.r]? = some st_r ∧ st_r.fail = some v0 ∧
        trie_walk call.states y 0 = some v0 ∧
        chase (y.length + 1) call.states v0 call.c = .ok v1 ∧
        chase call.states.length call.states v0 call.c = .ok v1 ∧
        call.states[v1]? = some st1 ∧ st1.go call.c = some d := by
  induction fuel with
  | zero =>
    intro sts queue r _ call hc
    cases queue with
    | nil => simp [bfs_calls] at hc
    | cons r1 queue => simp [bfs_calls] at hc
  | succ fuel ih =>
    intro sts queue r B call hc
    cases queue with
    | nil => simp [bfs_calls] at hc
    | cons r1 queue =>
      obtain ⟨hr10, locked_r, hlr, _⟩ := B.queue_done r1 (List.mem_cons_self _ _)
      have B1 := B.pop hlr
      obtain ⟨sts1, queue1, e1, B2, _⟩ := bfs_children_spec hr10 _ _ _ B1
      simp only [bfs_calls, hlr, e1, List.mem_append] at hc
      rcases hc with hc | hc
      · exact bfs_children_calls_spec hr10 _ _ _ B1 call hc
      · exact ih _ _ r1 B2 call hc

/-- Every call of the loop body in a run of `initialize` on a freshly constructed
automaton walks within the depth of the state it starts from. -/
theorem initialize_calls_spec (seed : List Char) (dict : List (List Char)) :
    ∀ call ∈ (AhoCorasick.mk_new seed).initialize_calls dict,
      ∃ st_r v0 y v1 st1 d, call.states[call.r]? = some st_r ∧ st_r.fail = some v0 ∧
        trie_walk call.states y 0 = some v0 ∧
        chase (y.length + 1) call.states v0 call.c = .ok v1 ∧
        chase call.states.length call.states v0 call.c = .ok v1 ∧
        call.states[v1]? = some st1 ∧ st1.go call.c = some d := by
  obtain ⟨a1, ws, e1, T, hv, hmem⟩ := insert_patterns_spec dict [] (AhoCorasick.mk_new seed)
    [[]] trie_of_new (nodup_mk_new_vocabulary seed)
  simp only [List.nil_append, List.length_nil] at e1 T
  obtain ⟨root, hroot⟩ := T.trie.state_of_word T.trie.root
  have hc : ∀ p ∈ dict.map normalize, ∀ c ∈ p, c ∈ a1.vocabulary :=
    fun p hp c hcp => (hmem c).mpr (Or.inr ⟨p, hp, hcp⟩)
  have B0 := bfs_start T hv hc hroot
  obtain ⟨sts3, queue, e2, B1, _⟩ := init_queue_spec _ _ _ B0
  intro call hcall
  have h1 : (AhoCorasick.mk_new seed).states.length = 1 := rfl
  simp only [AhoCorasick.initialize_calls, h1, ne_eq, not_true_eq_false, if_false, e1, hroot,
    e2] at hcall
  exact bfs_calls_spec _ _ _ 0 B1 call hcall

/-- The calls of the loop body in the run of `initialize` on the dictionary of the test
program: one for each state that is no child of the root, as the entry of its parent. -/
theorem initialize_calls_test_dict :
    ((AhoCorasick.mk_new []).initialize_calls test_dict).map (fun k => (k.r, k.c)) =
      [(1, 'e'), (1, 'i'), (3, 'h'), (2, 'r'), (8, 's'), (4, 'e'), (6, 's')] := by
  decide

/-! ## What the guard of `initialize` and the model of `initialize` give -/

/-- What the guard of `initialize` does refuse: when some pattern of `d1` normalizes to a
non-empty symbol sequence, `initialize(d1)` on a freshly constructed automaton leaves more
than the root state, and a following `initialize(d2)` returns -1 and leaves the automaton
as it is. -/
theorem reinitialize_rejected (seed : List Char) (d1 d2 : List (List Char))
    (h : ∃ d ∈ d1, normalize d ≠ []) :
    ∃ a, (AhoCorasick.mk_new seed).initialize_ d1 = .ok (0, a) ∧
      a.initialize_ d2 = .ok (-1, a) := by
  obtain ⟨a, ws, e, A, _, _⟩ := initialize_spec seed d1
  refine ⟨a, e, ?_⟩
  obtain ⟨d, hd, hne⟩ := h
  have hin : normalize d ∈ ws :=
    (A.mem_iff _).mpr (in_trie_of_mem (List.mem_map.mpr ⟨d, hd, rfl⟩))
  obtain ⟨k, hk⟩ := List.mem_iff_getElem?.mp hin
  have hk0 : k ≠ 0 := by
    intro h0
    subst h0
    rw [A.trie.root] at hk
    exact hne (Option.some.inj hk).symm
  have hklt : k < a.states.length := A.trie.len ▸ (List.getElem?_eq_some.mp hk).1
  unfold AhoCorasick.initialize_
  rw [if_pos (by omega)]

theorem reinitialize_rejected_witness :
    (∃ d ∈ test_dict, normalize d ≠ []) ∧
    ∃ a, (AhoCorasick.mk_new []).initialize_ test_dict = .ok (0, a) ∧
      a.initialize_ ["a".toList] = .ok (-1, a) :=
  ⟨by decide, reinitialize_rejected [] test_dict ["a".toList] (by decide)⟩

/-- The model `initialize_`, which takes the front of the queue by value, returns 0 on a
freshly constructed automaton, whatever the seed vocabulary and the pattern list: no
`shared_ptr` is built from an empty edge target or an empty fail pointer, and every loop
comes to an end. The read of the front of the queue through the reference the source
keeps across `pop()` is in `initialize_by_reference`. -/
theorem initialize_succeeds (seed : List Char) (dict : List (List Char)) :
    ∃ a, (AhoCorasick.mk_new seed).initialize_ dict = .ok (0, a) := by
  obtain ⟨a, ws, e, _⟩ := initialize_spec seed dict
  exact ⟨a, e⟩

/-! ## The claims -/

/-- C1. For every seed vocabulary, every pattern list in which each pattern normalizes to
a non-empty symbol sequence, and every text: `initialize` on a fresh automaton returns 0,
and `parse(text)` then returns, for the positions `k = 1, ..., n` of the query-normalized
text `t` one after the other, the ids of the patterns whose normalized form is a suffix
of the first `k` symbols of `t`, by decreasing length and, for equal length, by
increasing id. -/
theorem parse_reports_all_matches (seed : List Char) (dict : List (List Char))
    (text : List Char) (hne : ∀ d ∈ dict, normalize d ≠ []) :
    ∃ a, (AhoCorasick.mk_new seed).initialize_ dict = .ok (0, a) ∧
      a.parse text = .ok (expected_result (dict.map normalize)
        (preprocess_string a.vocabulary text false).1, a) := by
  obtain ⟨a, ws, e, A, _, _⟩ := initialize_spec seed dict
  refine ⟨a, e, ?_⟩
  have hn : [] ∉ dict.map normalize := by
    intro h
    obtain ⟨d, hd, hd2⟩ := List.mem_map.mp h
    exact hne d hd hd2
  rw [parse_spec A text, expected_result_eq hn]

theorem parse_reports_all_matches_witness :
    (∀ d ∈ test_dict, normalize d ≠ []) ∧
    ∃ a, (AhoCorasick.mk_new []).initialize_ test_dict = .ok (0, a) ∧
      a.parse "ushers".toList = .ok (expected_result (test_dict.map normalize)
        (preprocess_string a.vocabulary "ushers".toList false).1, a) :=
  ⟨by decide, parse_reports_all_matches [] test_dict "ushers".toList (by decide)⟩

/-- C2. With the empty seed vocabulary, `initialize` on `["he", "she", "hers", "his"]`
returns 0, and `parse("ushers")` then returns `[1, 0, 2]`. -/
theorem ushers_scenario :
    ∃ a, (AhoCorasick.mk_new []).initialize_ test_dict = .ok (0, a) ∧
      a.parse "ushers".toList = .ok ([1, 0, 2], a) := by
  exact ⟨_, rfl, rfl⟩

/-- C3. Two texts that agree character by character after `tolower` get the same result
from `parse`, on every automaton; so do `"UsHeRs"` and `"ushers"`. -/
theorem parse_case_insensitive (a : AhoCorasick) :
    (∀ t1 t2 : List Char, t1.length = t2.length →
      (∀ i (h1 : i < t1.length) (h2 : i < t2.length),
        tolower (t1.get ⟨i, h1⟩) = tolower (t2.get ⟨i, h2⟩)) →
      a.parse t1 = a.parse t2) ∧
    a.parse "UsHeRs".toList = a.parse "ushers".toList := by
  have key : ∀ t1 t2 : List Char, t1.map tolower = t2.map tolower →
      a.parse t1 = a.parse t2 := by
    intro t1 t2 h
    unfold AhoCorasick.parse
    rw [preprocess_string_congr false t1 t2 h]
  refine ⟨?_, key _ _ (by decide)⟩
  intro t1 t2 hlen h
  apply key
  apply List.ext_get
  · simpa using hlen
  · intro i h1 h2
    simp only [List.length_map] at h1 h2
    simpa using h i h1 h2

theorem parse_case_insensitive_witness :
    test_automaton.parse "sHe".toList = test_automaton.parse "She".toList :=
  (parse_case_insensitive test_automaton).1 "sHe".toList "She".toList rfl (by
    intro i h1 h2
    have h3 : i < 3 := h1
    interval_cases i <;> rfl)

/-- C4, the claim fails on the code. The guard of `initialize` asks whether the
automaton holds more than the root state, so a first call that added no state is not
seen. On the automaton constructed with the empty vocabulary, `initialize([])` returns 0;
a following `initialize(["a"])` returns 0 as well, not -1, and changes the automaton:
`parse("a")` returned the empty list before and returns `[0]` after. The second build is
not a sound one either: with the seed vocabulary `{a}`, `initialize([])` leaves a loop on
`a` at the root, `initialize(["a", "ab"])` then walks both patterns through this loop, and
`parse("b")` returns `[1]`, where the automaton built from `["a", "ab"]` at once returns the
empty list. -/
theorem reinitialize_after_empty :
    (∃ a a2, (AhoCorasick.mk_new []).initialize_ [] = .ok (0, a) ∧
      a.initialize_ ["a".toList] = .ok (0, a2) ∧ a2 ≠ a ∧
      a.parse "a".toList = .ok ([], a) ∧ a2.parse "a".toList = .ok ([0], a2)) ∧
    (∃ a a2 a3, (AhoCorasick.mk_new ['a']).initialize_ [] = .ok (0, a) ∧
      a.initialize_ ["a".toList, "ab".toList] = .ok (0, a2) ∧
      a2.parse "b".toList = .ok ([1], a2) ∧
      (AhoCorasick.mk_new ['a']).initialize_ ["a".toList, "ab".toList] = .ok (0, a3) ∧
      a3.parse "b".toList = .ok ([], a3)) :=
  ⟨⟨_, _, rfl, rfl, by decide, rfl, rfl⟩, ⟨_, _, _, rfl, rfl, rfl, rfl, rfl⟩⟩

/-- C5. On an automaton that holds more than the root state, `initialize` returns -1
and the automaton (states, edges, outputs, fail pointers, vocabulary) is as before. -/
theorem initialize_rejects (a : AhoCorasick) (dict : List (List Char))
    (h : 1 < a.states.length) : a.initialize_ dict = .ok (-1, a) := by
  unfold AhoCorasick.initialize_
  rw [if_pos (by omega)]

theorem initialize_rejects_witness :
    1 < test_automaton.states.length ∧
      test_automaton.initialize_ [] = .ok (-1, test_automaton) :=
  ⟨by decide, initialize_rejects test_automaton [] (by decide)⟩

/-- C6, the claim fails on the code. On the automaton constructed with the empty
vocabulary, `initialize` on the one pattern of 32 letters `a` takes 32 states from the
queue; the 32nd is the last element of the first node of the queue, `pop()` releases the
node, and `locked_r(r)` reads the element through the reference `r` from released memory,
where the claim has `initialize` return 0. With 31 letters the queue stays within its
first node and the call returns 0. -/
theorem initialize_reads_released_front :
    AhoCorasick.initialize_by_reference 32 (AhoCorasick.mk_new []) [List.replicate 32 'a'] =
      .error .dangling_reference ∧
    ∃ a, AhoCorasick.initialize_by_reference 32 (AhoCorasick.mk_new [])
      [List.replicate 31 'a'] = .ok (0, a) :=
  ⟨rfl, _, rfl⟩

/-- C7. On the automaton `initialize` leaves, `parse` returns a list for every text and
leaves the automaton (vocabulary, states, edges, outputs, fail pointers) as it is; in
query mode `preprocess_string` leaves every vocabulary as it is, and a `parse` that
returns leaves any automaton as it is. Hence a second `parse` of the same text, or any
other `parse`, runs on the same automaton. -/
theorem parse_leaves_automaton (seed : List Char) (dict : List (List Char)) :
    (∃ a, (AhoCorasick.mk_new seed).initialize_ dict = .ok (0, a) ∧
      ∀ (text : List Char), ∃ r, a.parse text = .ok (r, a)) ∧
    (∀ (v text : List Char), (preprocess_string v text false).2 = v) ∧
    ∀ (a : AhoCorasick) (text : List Char),
      match a.parse text with
      | .ok (_, a2) => a2 = a
      | .error _ => True := by
  obtain ⟨a, ws, e, A, _, _⟩ := initialize_spec seed dict
  refine ⟨⟨a, e, fun text => ⟨_, parse_spec A text⟩⟩,
    fun v text => preprocess_loop_query_vocab _ _ _, ?_⟩
  intro a text
  cases h : a.parse text with
  | error _ => trivial
  | ok p => exact parse_frame h

/-- C8. `parse("")` returns the empty list: on every automaton that holds its root (the
constructor puts the root into `states` and no member removes a state), so on the fresh
automaton of every seed vocabulary and on the automaton `initialize` leaves for every
pattern list; and `preprocess_string("", false)` returns the empty string. -/
theorem parse_empty_text :
    (∀ (v : List Char), preprocess_string v [] false = ([], v)) ∧
    (∀ (a : AhoCorasick), a.states ≠ [] → a.parse [] = .ok ([], a)) ∧
    (∀ (seed : List Char),
      (AhoCorasick.mk_new seed).parse [] = .ok ([], AhoCorasick.mk_new seed)) ∧
    (∀ (seed : List Char) (dict : List (List Char)),
      ∃ a, (AhoCorasick.mk_new seed).initialize_ dict = .ok (0, a) ∧
        a.parse [] = .ok ([], a)) := by
  have key : ∀ (a : AhoCorasick), a.states ≠ [] → a.parse [] = .ok ([], a) := by
    intro a h
    have hlen : a.states.length ≠ 0 := fun h0 => h (List.length_eq_zero.mp h0)
    simp [AhoCorasick.parse, preprocess_string, preprocess_loop, parse_loop, hlen]
  refine ⟨fun v => rfl, key, fun seed => key _ (by simp [AhoCorasick.mk_new]), ?_⟩
  intro seed dict
  obtain ⟨a, ws, e, A, _, _⟩ := initialize_spec seed dict
  refine ⟨a, e, key a ?_⟩
  intro h
  have := A.trie.length_lt A.trie.root
  rw [h] at this
  simp at this

theorem parse_empty_text_witness :
    test_automaton.states ≠ [] ∧ test_automaton.parse [] = .ok ([], test_automaton) :=
  ⟨by decide, parse_empty_text.2.1 test_automaton (by decide)⟩

/-- C9. For every seed vocabulary, `initialize([])` on a freshly constructed automaton
returns 0 and leaves an automaton whose only state is the root; the edges of the root are
one loop to the root for each symbol of the vocabulary, which holds each case-folded seed
symbol once; the outputs of the root are empty, and `parse` returns the empty list for
every text. -/
theorem initialize_empty_dict (seed : List Char) :
    ∃ a, (AhoCorasick.mk_new seed).initialize_ [] = .ok (0, a) ∧
      a.states = [{ edges := a.vocabulary.map fun c => { entry := c, dest := 0 },
                    outputs := [], fail := none }] ∧
      a.vocabulary.Nodup ∧ (∀ (c : Char), c ∈ a.vocabulary ↔ ∃ s ∈ seed, tolower s = c) ∧
      ∀ (text : List Char), a.parse text = .ok ([], a) := by
  have hv := nodup_mk_new_vocabulary seed
  have e : (AhoCorasick.mk_new seed).initialize_ [] = .ok (0,
      { states := [{ edges := (AhoCorasick.mk_new seed).vocabulary.map
                      fun c => { entry := c, dest := 0 },
                     outputs := [], fail := none }],
        vocabulary := (AhoCorasick.mk_new seed).vocabulary }) := by
    have h1 : (AhoCorasick.mk_new seed).states = [({} : State)] := rfl
    have h2 : ({} : State).get_entries = [] := rfl
    have h3 := add_root_loops_fresh (AhoCorasick.mk_new seed).vocabulary {} hv
      (fun _ _ => rfl)
    simp only [List.nil_append] at h3
    have h4 := init_queue_loops (AhoCorasick.mk_new seed).vocabulary
      { edges := (AhoCorasick.mk_new seed).vocabulary.map
          fun c => ({ entry := c, dest := 0 } : Edge),
        outputs := [], fail := none }
      (by
        intro c hc
        simp only [State.go, go_edges_loops, hc, if_true])
    simp only [AhoCorasick.initialize_, insert_patterns, h1, List.length_singleton, ne_eq,
      not_true_eq_false, if_false, List.getElem?_cons_zero, h2, h3, List.set_cons_zero, h4, bfs]
  obtain ⟨a, ws, e2, A, _, _⟩ := initialize_spec seed []
  rw [e] at e2
  have ha : a = _ := ((Prod.mk.inj (Except.ok.inj e2)).2).symm
  refine ⟨_, e, rfl, hv, mem_mk_new_vocabulary seed, ?_⟩
  intro text
  rw [ha] at A
  rw [parse_spec A text]
  simp [final_outputs_no_patterns]

/-- C10, the claim fails on the code: `preprocess_string(" a", true)` returns `"a"`,
where the claim has `" a"` (`collapse_spaces`). A single space at the start of the string
is compared with itself (`last_char` starts as `tolower(s[0])`) and is dropped, although
it is not a duplicate. Away from the start a run is replaced by one space. -/
theorem preprocess_drops_leading_space :
    (preprocess_string [] " a".toList true).1 = "a".toList ∧
    collapse_spaces (" a".toList.map tolower) = " a".toList ∧
    (preprocess_string [] "a  b".toList true).1 = "a b".toList := by
  decide

/-- C11. In query mode `preprocess_string` returns, for every vocabulary and raw string,
a subsequence of the case-folded raw string; every symbol of it is a member of the
vocabulary; the symbols other than the space in it are, in their order, the case-folded
characters of the raw string that are members of the vocabulary and are not the space;
the vocabulary is left as it is. -/
theorem query_normalization_filters (v raw : List Char) :
    (preprocess_string v raw false).1.Sublist (raw.map tolower) ∧
    (∀ x ∈ (preprocess_string v raw false).1, x ∈ v) ∧
    (preprocess_string v raw false).1.filter (fun c => decide (c ≠ ' ')) =
      (raw.map tolower).filter (fun c => decide (c ∈ v ∧ c ≠ ' ')) ∧
    (preprocess_string v raw false).2 = v :=
  ⟨preprocess_loop_query_sublist _ _ _, preprocess_loop_query_mem _ _ _,
    preprocess_loop_query_filter _ _ _, preprocess_loop_query_vocab _ _ _⟩

/-- C12, the claim fails on the code. With the patterns `""` (id 0) and `"a"` (id 1) the
state 1 spells `"a"`; its own outputs are `[1]`, its fail target is the root, and the
outputs of the root are `[0]`: the claim has `[1, 0]` for the outputs of the state, the
code leaves `[1]`. The loop over the children of the root sets the fail pointer only; the
loop over the queue does append the outputs of the fail target, the root included: with
the patterns `""` and `"ba"` the state 2 of `"ba"` has the outputs `[1, 0]`. -/
theorem child_of_root_misses_root_outputs :
    (∃ a root u, (AhoCorasick.mk_new []).initialize_ dict_with_empty = .ok (0, a) ∧
      a.states[0]? = some root ∧ a.states[1]? = some u ∧
      trie_walk a.states "a".toList 0 = some 1 ∧
      own (dict_with_empty.map normalize) "a".toList = [1] ∧
      u.fail = some 0 ∧ root.outputs = [0] ∧ u.outputs = [1]) ∧
    (∃ a root u, (AhoCorasick.mk_new []).initialize_ ["".toList, "ba".toList] = .ok (0, a) ∧
      a.states[0]? = some root ∧ a.states[2]? = some u ∧
      trie_walk a.states "ba".toList 0 = some 2 ∧
      u.fail = some 0 ∧ root.outputs = [0] ∧ u.outputs = [1, 0]) :=
  ⟨⟨_, _, _, rfl, rfl, rfl, rfl, by decide, rfl, rfl, rfl⟩,
    ⟨_, _, _, rfl, rfl, rfl, rfl, rfl, rfl, rfl⟩⟩

/-- C13. After `initialize` on a freshly constructed automaton the root has no fail
target, every state spells a word, and the fail pointer of a state other than the root
that spells `w` leads to the state that spells `v`, the longest proper suffix of `w` that
is a word of the trie of the normalized patterns (empty, or a prefix of a pattern). -/
theorem fail_is_longest_suffix (seed : List Char) (dict : List (List Char)) :
    ∃ a, (AhoCorasick.mk_new seed).initialize_ dict = .ok (0, a) ∧
      (∃ root, a.states[0]? = some root ∧ root.fail = none) ∧
      (∀ (u : Nat), u < a.states.length → ∃ w, trie_walk a.states w 0 = some u) ∧
      ∀ (u : Nat) (st : State) (w : List Char), u ≠ 0 → a.states[u]? = some st →
        trie_walk a.states w 0 = some u →
        ∃ f v, st.fail = some f ∧ trie_walk a.states v 0 = some f ∧
          v <:+ w ∧ v.length < w.length ∧ in_trie (dict.map normalize) v ∧
          ∀ (v1 : List Char), v1 <:+ w → v1.length < w.length →
            in_trie (dict.map normalize) v1 → v1.length ≤ v.length := by
  obtain ⟨a, ws, e, A, _, _⟩ := initialize_spec seed dict
  obtain ⟨root, hroot, hrf, _⟩ := A.root_fail
  refine ⟨a, e, ⟨root, hroot, hrf⟩, A.spelled, ?_⟩
  intro u st w hu hst hw
  have hww := (spells_iff A.trie w u).mp hw
  obtain ⟨hne, f, hf, hfw⟩ := A.fail_spec hst hww hu
  refine ⟨f, _, hf, (spells_iff A.trie _ f).mpr hfw, ?_, longest_suffix_tail_lt _ hne,
    longest_suffix_in_trie _ _, ?_⟩
  · exact (longest_suffix_suffix _ _).trans (List.tail_suffix w)
  · intro v1 h1 h2 h3
    exact longest_suffix_max _ _ _ (suffix_tail_of_proper h1 h2) h3

/-- C14. After `initialize` on a freshly constructed automaton the vocabulary is made of
the case-folded seed symbols and of the symbols of the normalized patterns; the root has
an edge on every symbol of it, and the entry of every edge of every state is a member of
it. -/
theorem root_has_all_symbols (seed : List Char) (dict : List (List Char)) :
    ∃ a root, (AhoCorasick.mk_new seed).initialize_ dict = .ok (0, a) ∧
      a.states[0]? = some root ∧
      (∀ (c : Char), c ∈ a.vocabulary ↔
        (∃ s ∈ seed, tolower s = c) ∨ ∃ d ∈ dict, c ∈ (preprocess_string [] d true).1) ∧
      (∀ c ∈ a.vocabulary, ∃ d, root.go c = some d) ∧
      ∀ st ∈ a.states, ∀ e ∈ st.edges, e.entry ∈ a.vocabulary := by
  obtain ⟨a, ws, e, A, _, hv⟩ := initialize_spec seed dict
  obtain ⟨root, hroot⟩ := A.trie.state_of_word A.trie.root
  refine ⟨a, root, e, hroot, ?_, fun c hc => A.trie.root_total hroot hc, ?_⟩
  · intro c
    rw [hv]
    simp only [List.mem_map, exists_exists_and_eq_and]
    rfl
  · intro st hst ed hed
    obtain ⟨s, hs⟩ := List.mem_iff_getElem?.mp hst
    obtain ⟨w, hw⟩ := A.trie.word_of_state hs
    have hgo : st.go ed.entry ≠ none :=
      (go_edges_ne_none_iff _ _).mpr ⟨ed, hed, rfl⟩
    cases hd : st.go ed.entry with
    | none => exact absurd hd hgo
    | some d =>
      rcases (A.trie.go_iff s st w _ d hs hw).mp hd with h | ⟨_, _, h, _⟩
      · exact A.chars _ (List.mem_iff_getElem?.mpr ⟨d, h⟩) _ (by simp)
      · exact h

/-- C15. After `initialize` on a freshly constructed automaton every state other than the
root has a fail target, and the word of the target is shorter than its own. Hence the
walk along the fail pointers from a state that spells `y`, on a symbol of the vocabulary,
stops at a state with an edge on the symbol after at most `y.length` steps (it looks at
`y.length + 1` states at most), without asking the root for its fail target; `parse`
returns for every text. And every walk made in the loop over the queue of `initialize`
itself, on the states as they are at that time, starts at the fail target of the state
taken from the queue, which spells a word `y`, and stops after at most `y.length` steps
at a state with an edge on the symbol. -/
theorem fail_walks_terminate (seed : List Char) (dict : List (List Char)) :
    (∃ a, (AhoCorasick.mk_new seed).initialize_ dict = .ok (0, a) ∧
      (∀ (u : Nat) (st : State) (w : List Char), u ≠ 0 → a.states[u]? = some st →
        trie_walk a.states w 0 = some u →
        ∃ f v, st.fail = some f ∧ trie_walk a.states v 0 = some f ∧ v.length < w.length) ∧
      (∀ (q : Nat) (y : List Char) (c : Char), trie_walk a.states y 0 = some q →
        c ∈ a.vocabulary →
        ∃ v1 st1 d, chase (y.length + 1) a.states q c = .ok v1 ∧
          chase a.states.length a.states q c = .ok v1 ∧
          a.states[v1]? = some st1 ∧ st1.go c = some d) ∧
      ∀ (text : List Char), ∃ r, a.parse text = .ok (r, a)) ∧
    ∀ call ∈ (AhoCorasick.mk_new seed).initialize_calls dict,
      ∃ st_r v0 y v1 st1 d, call.states[call.r]? = some st_r ∧ st_r.fail = some v0 ∧
        trie_walk call.states y 0 = some v0 ∧
        chase (y.length + 1) call.states v0 call.c = .ok v1 ∧
        chase call.states.length call.states v0 call.c = .ok v1 ∧
        call.states[v1]? = some st1 ∧ st1.go call.c = some d := by
  obtain ⟨a, ws, e, A, _, _⟩ := initialize_spec seed dict
  refine ⟨⟨a, e, ?_, ?_, fun text => ⟨_, parse_spec A text⟩⟩, initialize_calls_spec seed dict⟩
  · intro u st w hu hst hw
    have hww := (spells_iff A.trie w u).mp hw
    obtain ⟨hne, f, hf, hfw⟩ := A.fail_spec hst hww hu
    exact ⟨f, _, hf, (spells_iff A.trie _ f).mpr hfw, longest_suffix_tail_lt _ hne⟩
  · intro q y c hq hc
    exact A.chase_within_depth ((spells_iff A.trie y q).mp hq) hc

/-- C16. In every automaton that is reachable from the constructor by calls of
`initialize` and `parse`, every state has at most one edge for each symbol: no two edges
of a state have the same entry. `add_child` refuses (returns -1 and leaves the state as
it is) when the state has an edge on the entry already. -/
theorem one_edge_per_symbol (a : AhoCorasick) (h : Reachable a) :
    (∀ st ∈ a.states, (st.edges.map Edge.entry).Nodup) ∧
    ∀ (st : State) (c : Char) (d : Nat), st.go c ≠ none → st.add_child c d = (-1, st) := by
  refine ⟨reachable_det h, ?_⟩
  intro st c d hgo
  unfold State.add_child
  rw [if_pos]
  cases hg : st.go c with
  | none => exact absurd hg hgo
  | some _ => rfl

theorem one_edge_per_symbol_witness :
    Reachable test_automaton ∧
    (∀ st ∈ test_automaton.states, (st.edges.map Edge.entry).Nodup) ∧
    ∀ (st : State) (c : Char) (d : Nat), st.go c ≠ none → st.add_child c d = (-1, st) :=
  have hr : Reachable test_automaton :=
    Reachable.init_call test_dict 0 test_automaton (Reachable.construct []) rfl
  ⟨hr, one_edge_per_symbol test_automaton hr⟩

/-- C17. After `initialize` on a freshly constructed automaton the outputs of the root
are the ids, in increasing order, of the patterns that normalize to the empty symbol
sequence. Such a pattern creates no state: its walk returns the states as they are, and
the automaton has as many states as the one built from the list without these
patterns. -/
theorem empty_patterns_mark_root (seed : List Char) (dict : List (List Char)) :
    ∃ a root, (AhoCorasick.mk_new seed).initialize_ dict = .ok (0, a) ∧
      a.states[0]? = some root ∧
      root.outputs =
        (List.range dict.length).filter (fun i => decide ((dict[i]?).map normalize = some [])) ∧
      (∀ (p : Nat) (states : List State), insert_symbols [] p states = .ok (p, states)) ∧
      ∃ a1, (AhoCorasick.mk_new seed).initialize_
          (dict.filter fun d => decide (normalize d ≠ [])) = .ok (0, a1) ∧
        a1.states.length = a.states.length := by
  obtain ⟨a, ws, e, A, _, _⟩ := initialize_spec seed dict
  obtain ⟨a1, ws1, e1, A1, _, _⟩ :=
    initialize_spec seed (dict.filter fun d => decide (normalize d ≠ []))
  obtain ⟨root, hroot, _, hout⟩ := A.root_fail
  refine ⟨a, root, e, hroot, ?_, fun p states => rfl, a1, e1, ?_⟩
  · rw [hout]
    unfold own
    rw [List.length_map]
    apply List.filter_congr
    intro i _
    rw [List.getElem?_map]
  · rw [← A.trie.len, ← A1.trie.len]
    apply List.Perm.length_eq
    rw [List.perm_ext_iff_of_nodup A1.trie.nodup A.trie.nodup]
    intro w
    rw [A1.mem_iff, A.mem_iff]
    exact in_trie_filter_nonempty dict w

/-- C18. On a raw string whose case-folded characters are all members of the vocabulary,
`preprocess_string` returns the same string in ingestion mode and in query mode, and
leaves the vocabulary as it is in both. -/
theorem normalizations_agree (v raw : List Char) (h : ∀ c ∈ raw, tolower c ∈ v) :
    (preprocess_string v raw true).1 = (preprocess_string v raw false).1 ∧
    (preprocess_string v raw true).2 = v ∧ (preprocess_string v raw false).2 = v := by
  have e : preprocess_string v raw true = preprocess_string v raw false :=
    preprocess_loop_modes_agree _ _ _ h
  rw [e]
  exact ⟨rfl, preprocess_loop_query_vocab _ _ _, preprocess_loop_query_vocab _ _ _⟩

theorem normalizations_agree_witness :
    (∀ c ∈ "A  b".toList, tolower c ∈ [' ', 'a', 'b']) ∧
    (preprocess_string [' ', 'a', 'b'] "A  b".toList true).1 =
      (preprocess_string [' ', 'a', 'b'] "A  b".toList false).1 ∧
    (preprocess_string [' ', 'a', 'b'] "A  b".toList true).2 = [' ', 'a', 'b'] ∧
    (preprocess_string [' ', 'a', 'b'] "A  b".toList false).2 = [' ', 'a', 'b'] :=
  ⟨by decide, normalizations_agree [' ', 'a', 'b'] "A  b".toList (by decide)⟩

/-- C19. For every seed vocabulary, every pattern list and every index `i` whose pattern
normalizes to a non-empty symbol sequence: after `initialize` on a freshly constructed
automaton, `parse` of the raw pattern of index `i` returns a list that contains `i`. -/
theorem pattern_finds_itself (seed : List Char) (dict : List (List Char)) (i : Nat)
    (d : List Char) (hd : dict[i]? = some d) (hne : normalize d ≠ []) :
    ∃ a r, (AhoCorasick.mk_new seed).initialize_ dict = .ok (0, a) ∧
      a.parse d = .ok (r, a) ∧ i ∈ r := by
  obtain ⟨a, ws, e, A, _, hv⟩ := initialize_spec seed dict
  refine ⟨a, _, e, parse_spec A d, ?_⟩
  have hmem : d ∈ dict := List.mem_iff_getElem?.mpr ⟨i, hd⟩
  have hq : (preprocess_string a.vocabulary d false).1 = normalize d :=
    query_eq_normalize _ _
      (fun x hx => (hv x).mpr (Or.inr ⟨normalize d, List.mem_map.mpr ⟨d, hmem, rfl⟩, hx⟩))
  rw [hq]
  have hlen : 0 < (normalize d).length := List.length_pos.mpr hne
  rw [List.mem_flatMap]
  refine ⟨(normalize d).length - 1, List.mem_range.mpr (by omega), ?_⟩
  have ht : (normalize d).take ((normalize d).length - 1 + 1) = normalize d :=
    List.take_of_length_le (by omega)
  rw [ht]
  apply own_subset_final_outputs
  rw [mem_own, List.getElem?_map, hd]
  rfl

theorem pattern_finds_itself_witness :
    test_dict[2]? = some "hers".toList ∧ normalize "hers".toList ≠ [] ∧
    ∃ a r, (AhoCorasick.mk_new []).initialize_ test_dict = .ok (0, a) ∧
      a.parse "hers".toList = .ok (r, a) ∧ 2 ∈ r :=
  ⟨rfl, by decide, pattern_finds_itself [] test_dict 2 "hers".toList rfl (by decide)⟩

/-- C20. For every seed vocabulary, pattern list and text: after `initialize` on a
freshly constructed automaton, every id `parse` returns is smaller than the number of
patterns, so that it is an index into the pattern list of the caller. -/
theorem parse_ids_in_range (seed : List Char) (dict : List (List Char)) (text : List Char) :
    ∃ a r, (AhoCorasick.mk_new seed).initialize_ dict = .ok (0, a) ∧
      a.parse text = .ok (r, a) ∧ ∀ i ∈ r, i < dict.length := by
  obtain ⟨a, ws, e, A, _, _⟩ := initialize_spec seed dict
  refine ⟨a, _, e, parse_spec A text, ?_⟩
  intro i hi
  obtain ⟨k, _, hk⟩ := List.mem_flatMap.mp hi
  simpa using lt_of_mem_final_outputs _ hk

end AC
